import Mathlib

/-!
Shallow embedding of the graph engine of `src/CodigoChatGptBase.c`
(an undirected "friendship network" stored as adjacency lists with an
adjacency-matrix mirror), together with proofs of the specification
claims about it.

Modelling conventions:
* the C array `vertices[MAX_VERTICES]` with counter `n` is modelled as a
  `List Vertex` whose length is `n` (the C code never reads a slot `≥ n`);
* each vertex's adjacency linked list (`AdjNode` chain, head first) is a
  `List Nat` in the same order (new edges are prepended, as in the C code);
* the mirror `int adjMatrix[MAX][MAX]` is a function `Nat → Nat → Nat`;
  the C code branches on `adjMatrix[u][v]` being nonzero and writes only
  `0` and `1`, and every write the C code performs is reproduced here;
* C functions that mutate the graph return `Int × Graph`: the C return
  code together with the state of `*g` after the call; error paths in the
  C code return before touching `*g`, hence they return the input graph;
* the read-only queries (`find_vertex_index`, `bfs`, `dfs`) are modelled
  as loops that carry the graph through every iteration and hand it back
  at each exit point, mirroring the fact that the C loops never store
  through the `Graph*` pointer.
-/

/-- `MAX_VERTICES` from the C source. -/
def MAX_VERTICES : Nat := 20

/-- One cell of the C `Vertex` struct: the display name and the adjacency
linked list (head of the `AdjNode` chain first). -/
structure Vertex where
  name : String
  adj : List Nat
  deriving Repr, DecidableEq, Inhabited

/-- The C `Graph` struct: the first `n` slots of `vertices[]` and the
adjacency-matrix mirror. -/
structure Graph where
  vertices : List Vertex
  adjMatrix : Nat → Nat → Nat

/-- The vertex counter `g->n`: the number of live slots. -/
def Graph.n (g : Graph) : Nat := g.vertices.length

/-- Read `g->vertices[i]` (the C code only does this for `i < n`). -/
def vertexAt (g : Graph) (i : Nat) : Vertex := g.vertices.getD i default

/-- The adjacency list of position `u`. -/
def adjOf (g : Graph) (u : Nat) : List Nat := (vertexAt g u).adj

/-- `init_graph`: empty vertex store, all-zero matrix. -/
def init_graph : Graph := ⟨[], fun _ _ => 0⟩

/-- Write a single cell of the matrix mirror (`g->adjMatrix[i][j] = val`). -/
def matWrite (m : Nat → Nat → Nat) (i j val : Nat) : Nat → Nat → Nat :=
  fun a b => if a = i ∧ b = j then val else m a b

/-- Apply `f` to the adjacency list of the vertex stored at index `i`. -/
def updateAdj : List Vertex → Nat → (List Nat → List Nat) → List Vertex
  | [], _, _ => []
  | v :: rest, 0, f => { v with adj := f v.adj } :: rest
  | v :: rest, Nat.succ j, f => v :: updateAdj rest j f

/-- The scanning loop of `find_vertex_index`: walk `vertices[i]` for
`i = 0, 1, …, n-1` (the slots of the store, in order), returning the
matching index or `-1`; the graph is carried through every iteration and
returned untouched at each exit. -/
def find_vertex_index_loop : List Vertex → String → Nat → Graph → Int × Graph
  | [], _, _, g => (-1, g)
  | v :: rest, name, i, g =>
    if v.name = name then ((i : Int), g)
    else find_vertex_index_loop rest name (i + 1) g

/-- `find_vertex_index`: index of the vertex called `name`, or `-1`. -/
def find_vertex_index (g : Graph) (name : String) : Int :=
  (find_vertex_index_loop g.vertices name 0 g).1

/-- `add_vertex`: `-1` if full, `-2` if the name exists, else append a
vertex with empty adjacency list (the matrix row/column of the new slot
are whatever they already were — the C code relies on their being zero). -/
def add_vertex (g : Graph) (name : String) : Int × Graph :=
  if g.n ≥ MAX_VERTICES then (-1, g)
  else if find_vertex_index g name ≠ -1 then (-2, g)
  else (0, ⟨g.vertices ++ [⟨name, []⟩], g.adjMatrix⟩)

/-- `add_edge_by_index`: bounds / self-loop / duplicate checks, then
prepend each endpoint to the other's list and set both matrix cells. -/
def add_edge_by_index (g : Graph) (u v : Nat) : Int × Graph :=
  if u ≥ g.n ∨ v ≥ g.n then (-1, g)
  else if u = v then (-1, g)
  else if g.adjMatrix u v ≠ 0 then (-1, g)
  else
    (0, ⟨updateAdj (updateAdj g.vertices u (fun l => v :: l)) v (fun l => u :: l),
         matWrite (matWrite g.adjMatrix u v 1) v u 1⟩)

/-- `add_edge` (by names). -/
def add_edge (g : Graph) (name1 name2 : String) : Int × Graph :=
  let u := find_vertex_index g name1
  let v := find_vertex_index g name2
  if u = -1 ∨ v = -1 then (-1, g)
  else add_edge_by_index g u.toNat v.toNat

/-- The deletion loop of `remove_edge_by_index`: drop the first node whose
field is `t` (the C loop `break`s after the first hit). -/
def remove_first : List Nat → Nat → List Nat
  | [], _ => []
  | x :: xs, t => if x = t then xs else x :: remove_first xs t

/-- `remove_occurrences_from_list`: drop every node whose field is `t`. -/
def remove_occurrences : List Nat → Nat → List Nat
  | [], _ => []
  | x :: xs, t => if x = t then remove_occurrences xs t else x :: remove_occurrences xs t

/-- `remove_edge_by_index`. -/
def remove_edge_by_index (g : Graph) (u v : Nat) : Int × Graph :=
  if u ≥ g.n ∨ v ≥ g.n then (-1, g)
  else if g.adjMatrix u v = 0 then (-1, g)
  else
    (0, ⟨updateAdj (updateAdj g.vertices u (fun l => remove_first l v)) v
           (fun l => remove_first l u),
         matWrite (matWrite g.adjMatrix u v 0) v u 0⟩)

/-- `remove_edge` (by names). -/
def remove_edge (g : Graph) (name1 name2 : String) : Int × Graph :=
  let u := find_vertex_index g name1
  let v := find_vertex_index g name2
  if u = -1 ∨ v = -1 then (-1, g)
  else remove_edge_by_index g u.toNat v.toNat

/-- Step 1 of `remove_vertex_by_index`: for every slot `i ≠ target`,
remove every occurrence of `target` from that slot's list (`i` is the
running index of the C `for` loop). -/
def removeTargetAll : List Vertex → Nat → Nat → List Vertex
  | [], _, _ => []
  | v :: rest, target, i =>
    (if i = target then v else { v with adj := remove_occurrences v.adj target })
      :: removeTargetAll rest target (i + 1)

/-- Row shift of the matrix mirror: `for i in [target, n-2], for j < n:
m[i][j] = m[i+1][j]` (reads are of rows not yet written, so the
sequential loop equals this pointwise description). -/
def shiftRows (m : Nat → Nat → Nat) (target n : Nat) : Nat → Nat → Nat :=
  fun a b => if target ≤ a ∧ a < n - 1 ∧ b < n then m (a + 1) b else m a b

/-- Column shift: `for j in [target, n-2], for i < n-1: m[i][j] = m[i][j+1]`. -/
def shiftCols (m : Nat → Nat → Nat) (target n : Nat) : Nat → Nat → Nat :=
  fun a b => if a < n - 1 ∧ target ≤ b ∧ b < n - 1 then m a (b + 1) else m a b

/-- Clearing of the (now duplicated) last row and column:
`for i < n: m[n-1][i] = 0; m[i][n-1] = 0`. -/
def clearLast (m : Nat → Nat → Nat) (n : Nat) : Nat → Nat → Nat :=
  fun a b => if (a = n - 1 ∧ b < n) ∨ (b = n - 1 ∧ a < n) then 0 else m a b

/-- Step 5 of `remove_vertex_by_index`: decrement every adjacency entry
greater than `target`. -/
def decAbove (target : Nat) (l : List Nat) : List Nat :=
  l.map (fun x => if target < x then x - 1 else x)

/-- `remove_vertex_by_index`: bounds check, then (1) purge `target` from
every other list, (2)–(3) drop slot `target` and shift the store left,
(4) shift the matrix rows/columns and clear the stale last row/column,
(5) renumber the remaining adjacency entries, decrement `n`. -/
def remove_vertex_by_index (g : Graph) (target : Nat) : Int × Graph :=
  if target ≥ g.n then (-1, g)
  else
    let vs1 := removeTargetAll g.vertices target 0
    let vs2 := vs1.eraseIdx target
    let vs3 := vs2.map (fun v => { v with adj := decAbove target v.adj })
    (0, ⟨vs3, clearLast (shiftCols (shiftRows g.adjMatrix target g.n) target g.n) g.n⟩)

/-- `remove_vertex` (by name). -/
def remove_vertex (g : Graph) (name : String) : Int × Graph :=
  let idx := find_vertex_index g name
  if idx = -1 then (-1, g)
  else remove_vertex_by_index g idx.toNat

/-! ### Traversals

The C traversals use a `visited` flag array; here it is a `Finset Nat`.
Termination is by the measure `2 * (U.card - visited.card) + queue.length`
(`U` is a fixed superset of everything that can ever be marked), so the
helper loops return subtypes recording the two facts the measure needs:
the visited set only grows and stays inside `U`. -/

/-- All adjacency entries stored in a vertex list. -/
def allAdjList (vs : List Vertex) : List Nat := vs.foldr (fun v acc => v.adj ++ acc) []

/-- All adjacency entries stored in the graph. -/
def allAdj (g : Graph) : List Nat := allAdjList g.vertices

theorem mem_allAdjList {vs : List Vertex} {v : Vertex} (hv : v ∈ vs) {x : Nat}
    (hx : x ∈ v.adj) : x ∈ allAdjList vs := by
  induction vs with
  | nil => cases hv
  | cons w ws ih =>
    rcases List.mem_cons.mp hv with h | h
    · subst h; exact List.mem_append.mpr (Or.inl hx)
    · exact List.mem_append.mpr (Or.inr (ih h))

theorem getD_mem_of_lt {α : Type} [Inhabited α] :
    ∀ (l : List α) (i : Nat), i < l.length → l.getD i default ∈ l
  | a :: _, 0, _ => by simp
  | a :: l, i + 1, h => by
    simp only [List.getD_cons_succ]
    exact List.mem_cons_of_mem a (getD_mem_of_lt l i (by simpa using h))

theorem getD_of_ge {α : Type} [Inhabited α] :
    ∀ (l : List α) (i : Nat), l.length ≤ i → l.getD i default = default
  | [], _, _ => by simp
  | a :: l, i + 1, h => by
    simp only [List.getD_cons_succ]
    exact getD_of_ge l i (by simpa using h)

theorem adjOf_subset_allAdj (g : Graph) (u : Nat) : ∀ x ∈ adjOf g u, x ∈ allAdj g := by
  intro x hx
  unfold adjOf vertexAt at hx
  rcases Nat.lt_or_ge u g.vertices.length with h | h
  · exact mem_allAdjList (getD_mem_of_lt _ _ h) hx
  · rw [getD_of_ge _ _ h] at hx
    have hd : (default : Vertex).adj = [] := rfl
    rw [hd] at hx
    cases hx

/-- The universe of markable values for a traversal from `start`. -/
def travU (g : Graph) (start : Nat) : Finset Nat := insert start (allAdj g).toFinset

theorem travU_spec (g : Graph) (start : Nat) :
    ∀ u, ∀ x ∈ adjOf g u, x ∈ travU g start := fun u x hx =>
  Finset.mem_insert_of_mem (List.mem_toFinset.mpr (adjOf_subset_allAdj g u x hx))

/-- The inner `while (curr)` loop of `bfs`: walk the adjacency list of the
dequeued vertex, marking and enqueuing (at the tail) each unvisited entry. -/
def bfs_push (U : Finset Nat) :
    (adj : List Nat) → (∀ x ∈ adj, x ∈ U) → (visited : Finset Nat) → visited ⊆ U →
    (queue : List Nat) →
    { p : Finset Nat × List Nat // visited ⊆ p.1 ∧ p.1 ⊆ U ∧
        2 * (U.card - p.1.card) + p.2.length ≤ 2 * (U.card - visited.card) + queue.length }
  | [], _, visited, hv, queue => ⟨(visited, queue), subset_rfl, hv, le_rfl⟩
  | v :: rest, hadj, visited, hv, queue =>
    if hmem : v ∈ visited then
      bfs_push U rest (fun x hx => hadj x (List.mem_cons_of_mem v hx)) visited hv queue
    else
      let hvU : insert v visited ⊆ U :=
        Finset.insert_subset (hadj v (List.mem_cons_self v rest)) hv
      let r := bfs_push U rest (fun x hx => hadj x (List.mem_cons_of_mem v hx))
        (insert v visited) hvU (queue ++ [v])
      ⟨r.1, Finset.Subset.trans (Finset.subset_insert v visited) r.2.1, r.2.2.1, by
        refine le_trans r.2.2.2 ?_
        have h1 : (insert v visited).card ≤ U.card := Finset.card_le_card hvU
        have h2 : (insert v visited).card = visited.card + 1 :=
          Finset.card_insert_of_not_mem hmem
        simp only [List.length_append, List.length_cons, List.length_nil]
        omega⟩

/-- The outer `while (!queue_empty(q))` loop of `bfs`: dequeue, record, and
push the unvisited neighbors.  The graph is carried through every
iteration (the C loop only reads `g`) and handed back at the end. -/
def bfs_loop (g : Graph) (U : Finset Nat) (hU : ∀ u, ∀ x ∈ adjOf g u, x ∈ U) :
    (queue : List Nat) → (visited : Finset Nat) → visited ⊆ U → List Nat × Graph
  | [], _, _ => ([], g)
  | u :: rest, visited, hv =>
    match bfs_push U (adjOf g u) (hU u) visited hv rest with
    | ⟨(v2, q2), _, hU2, hle⟩ =>
      let out := bfs_loop g U hU q2 v2 hU2
      (u :: out.1, out.2)
termination_by queue visited _ => 2 * (U.card - visited.card) + queue.length
decreasing_by
  have hle2 : 2 * (U.card - v2.card) + q2.length ≤
      2 * (U.card - visited.card) + rest.length := hle
  simp only [List.length_cons]
  omega

/-- `bfs`, running form: range-check `start`, mark and enqueue it, loop.
Returns the dequeue order and the graph as left behind by the loop. -/
def bfs_run (g : Graph) (start : Nat) : List Nat × Graph :=
  if _h : start < g.n then
    bfs_loop g (travU g start) (travU_spec g start) [start] {start}
      (Finset.singleton_subset_iff.mpr (Finset.mem_insert_self start _))
  else ([], g)

/-- `bfs` as the C function observes it: the returned `count` and the
`visited_order` array (only the first `max_out` dequeues are recorded). -/
def bfs (g : Graph) (start : Nat) (max_out : Nat) : Nat × List Nat :=
  ((bfs_run g start).1.length, (bfs_run g start).1.take max_out)

/-- `dfs_util`, with the per-vertex body inlined into the neighbor loop:
processing list `l`, a visited head `v` is skipped; an unvisited head is
marked, recorded, and its adjacency list is fully explored before the
rest of `l`.  `dfs_util g [start] ∅` is exactly the C `dfs_util(g, start)`
on a fresh `visited` array. -/
def dfs_util (g : Graph) (U : Finset Nat) (hU : ∀ u, ∀ x ∈ adjOf g u, x ∈ U) :
    (l : List Nat) → (∀ x ∈ l, x ∈ U) → (visited : Finset Nat) → visited ⊆ U →
    { p : Finset Nat × (List Nat × Graph) // visited ⊆ p.1 ∧ p.1 ⊆ U }
  | [], _, visited, hv => ⟨(visited, ([], g)), subset_rfl, hv⟩
  | v :: rest, hl, visited, hv =>
    if hmem : v ∈ visited then
      dfs_util g U hU rest (fun x hx => hl x (List.mem_cons_of_mem v hx)) visited hv
    else
      let hvU : insert v visited ⊆ U :=
        Finset.insert_subset (hl v (List.mem_cons_self v rest)) hv
      match dfs_util g U hU (adjOf g v) (hU v) (insert v visited) hvU with
      | ⟨(vin, oin, gin), hin1, hin2⟩ =>
        match dfs_util g U hU rest (fun x hx => hl x (List.mem_cons_of_mem v hx)) vin hin2 with
        | ⟨(vaf, oaf, gaf), haf1, haf2⟩ =>
          ⟨(vaf, (v :: (oin ++ oaf), gaf)),
           Finset.Subset.trans (Finset.subset_insert v visited)
             (Finset.Subset.trans hin1 haf1),
           haf2⟩
termination_by l _ visited _ => (U.card - visited.card, l.length)
decreasing_by
  · exact Prod.Lex.right _ (by simp)
  · refine Prod.Lex.left _ _ ?_
    have h1 : (insert v visited).card ≤ U.card := Finset.card_le_card hvU
    have h2 : (insert v visited).card = visited.card + 1 :=
      Finset.card_insert_of_not_mem hmem
    omega
  · refine Prod.Lex.left _ _ ?_
    have h1 : (insert v visited).card ≤ vin.card := Finset.card_le_card hin1
    have h2 : vin.card ≤ U.card := Finset.card_le_card hin2
    have h3 : (insert v visited).card = visited.card + 1 :=
      Finset.card_insert_of_not_mem hmem
    omega

/-- `dfs`, running form: range-check, fresh visited set, recurse from
`start`.  Returns the visit order and the graph as left behind. -/
def dfs_run (g : Graph) (start : Nat) : List Nat × Graph :=
  if _h : start < g.n then
    let r := dfs_util g (travU g start) (travU_spec g start) [start]
      (fun x hx => by
        rw [List.mem_singleton.mp hx]; exact Finset.mem_insert_self start _)
      ∅ (Finset.empty_subset _)
    (r.1.2.1, r.1.2.2)
  else ([], g)

/-- `dfs` as the C function observes it: the returned `pos` counter and
the `order` array. -/
def dfs (g : Graph) (start : Nat) (max_out : Nat) : Nat × List Nat :=
  ((dfs_run g start).1.length, (dfs_run g start).1.take max_out)

/-! ### Operation sequences and reachable states -/

/-- One engine call, as issued by the front end (both the by-index core
operations and their by-name wrappers). -/
inductive Op where
  | addV (name : String)
  | addEIdx (u v : Nat)
  | addEName (a b : String)
  | remEIdx (u v : Nat)
  | remEName (a b : String)
  | remVIdx (t : Nat)
  | remVName (a : String)

/-- Apply one operation, keeping the resulting state. -/
def applyOp (g : Graph) : Op → Graph
  | .addV name => (add_vertex g name).2
  | .addEIdx u v => (add_edge_by_index g u v).2
  | .addEName a b => (add_edge g a b).2
  | .remEIdx u v => (remove_edge_by_index g u v).2
  | .remEName a b => (remove_edge g a b).2
  | .remVIdx t => (remove_vertex_by_index g t).2
  | .remVName a => (remove_vertex g a).2

/-- The state after running a whole call sequence from the empty graph. -/
def runOps (ops : List Op) : Graph := ops.foldl applyOp init_graph

/-- One adjacency-list step: `b` occurs in `a`'s adjacency list. -/
def EdgeRel (g : Graph) (a b : Nat) : Prop := b ∈ adjOf g a

/-- `v` is reachable from `s` along adjacency-list steps. -/
def Reaches (g : Graph) (s v : Nat) : Prop := Relation.ReflTransGen (EdgeRel g) s v

/-- The compaction scenario: vertices `A B C D`, edges `A-C` and `B-D`. -/
def compactGraph : Graph := runOps [Op.addV "A", Op.addV "B", Op.addV "C", Op.addV "D",
  Op.addEIdx 0 2, Op.addEIdx 1 3]

/-- The end-to-end scenario: `Alice`, `Bob`, `Carol`, edges Alice-Bob then
Alice-Carol. -/
def aliceGraph : Graph := runOps [Op.addV "Alice", Op.addV "Bob", Op.addV "Carol",
  Op.addEName "Alice" "Bob", Op.addEName "Alice" "Carol"]

/-- A triangle `A-B-C-A` (a cycle), for exercising the traversals. -/
def triangleGraph : Graph := runOps [Op.addV "A", Op.addV "B", Op.addV "C",
  Op.addEIdx 0 1, Op.addEIdx 1 2, Op.addEIdx 0 2]

/-- A two-vertex graph used as a small concrete state. -/
def pairGraph : Graph := runOps [Op.addV "A", Op.addV "B"]

/-- A graph filled to `MAX_VERTICES` capacity. -/
def fullGraph : Graph := runOps [Op.addV "v0", Op.addV "v1", Op.addV "v2", Op.addV "v3",
  Op.addV "v4", Op.addV "v5", Op.addV "v6", Op.addV "v7", Op.addV "v8", Op.addV "v9",
  Op.addV "v10", Op.addV "v11", Op.addV "v12", Op.addV "v13", Op.addV "v14",
  Op.addV "v15", Op.addV "v16", Op.addV "v17", Op.addV "v18", Op.addV "v19"]

/-! ### Helper lemmas about the list-level operations -/

theorem length_updateAdj : ∀ (vs : List Vertex) (i : Nat) (f : List Nat → List Nat),
    (updateAdj vs i f).length = vs.length
  | [], _, _ => rfl
  | _ :: rest, 0, f => by simp [updateAdj]
  | _ :: rest, Nat.succ j, f => by simp [updateAdj, length_updateAdj rest j f]

theorem getD_updateAdj_self : ∀ (vs : List Vertex) (i : Nat) (f : List Nat → List Nat),
    i < vs.length →
    (updateAdj vs i f).getD i default =
      { vs.getD i default with adj := f (vs.getD i default).adj }
  | [], i, _, h => by simp at h
  | v :: rest, 0, f, _ => by simp [updateAdj]
  | v :: rest, Nat.succ j, f, h => by
    simp only [updateAdj, List.getD_cons_succ]
    exact getD_updateAdj_self rest j f (by simpa using h)

theorem getD_updateAdj_ne : ∀ (vs : List Vertex) (i : Nat) (f : List Nat → List Nat)
    (j : Nat), j ≠ i → (updateAdj vs i f).getD j default = vs.getD j default
  | [], _, _, _, _ => by simp [updateAdj]
  | v :: rest, 0, f, 0, h => absurd rfl h
  | v :: rest, 0, f, Nat.succ b, _ => by simp [updateAdj]
  | v :: rest, Nat.succ i, f, 0, _ => by simp [updateAdj]
  | v :: rest, Nat.succ i, f, Nat.succ b, h => by
    simp only [updateAdj, List.getD_cons_succ]
    exact getD_updateAdj_ne rest i f b (by omega)

theorem mem_remove_occurrences (l : List Nat) (t x : Nat) :
    x ∈ remove_occurrences l t ↔ x ∈ l ∧ x ≠ t := by
  induction l with
  | nil => simp [remove_occurrences]
  | cons a xs ih =>
    simp only [remove_occurrences]
    split_ifs with h
    · subst h
      simp only [ih, List.mem_cons]
      tauto
    · simp only [List.mem_cons, ih]
      constructor
      · rintro (rfl | ⟨h1, h2⟩)
        · exact ⟨Or.inl rfl, fun hx => h hx⟩
        · exact ⟨Or.inr h1, h2⟩
      · rintro ⟨rfl | h1, h2⟩
        · exact Or.inl rfl
        · exact Or.inr ⟨h1, h2⟩

theorem nodup_remove_occurrences : ∀ (l : List Nat) (t : Nat),
    l.Nodup → (remove_occurrences l t).Nodup
  | [], _, _ => by simp [remove_occurrences]
  | a :: xs, t, h => by
    rcases List.nodup_cons.mp h with ⟨ha, hxs⟩
    by_cases hat : a = t
    · simpa [remove_occurrences, hat] using nodup_remove_occurrences xs t hxs
    · simp only [remove_occurrences, if_neg hat]
      refine List.nodup_cons.mpr ⟨?_, nodup_remove_occurrences xs t hxs⟩
      intro hx
      exact ha ((mem_remove_occurrences xs t a).mp hx).1

theorem mem_remove_first_imp : ∀ (l : List Nat) (t x : Nat),
    x ∈ remove_first l t → x ∈ l
  | [], _, _, h => by simpa [remove_first] using h
  | a :: xs, t, x, h => by
    by_cases hat : a = t
    · simp only [remove_first, if_pos hat] at h
      exact List.mem_cons_of_mem a h
    · simp only [remove_first, if_neg hat, List.mem_cons] at h
      rcases h with rfl | h
      · exact List.mem_cons_self x xs
      · exact List.mem_cons_of_mem a (mem_remove_first_imp xs t x h)

theorem mem_remove_first : ∀ (l : List Nat) (t x : Nat), l.Nodup →
    (x ∈ remove_first l t ↔ x ∈ l ∧ x ≠ t)
  | [], t, x, _ => by simp [remove_first]
  | a :: xs, t, x, h => by
    rcases List.nodup_cons.mp h with ⟨ha, hxs⟩
    by_cases hat : a = t
    · subst hat
      simp only [remove_first, if_pos rfl, List.mem_cons]
      constructor
      · intro hx
        exact ⟨Or.inr hx, fun hxa => ha (hxa ▸ hx)⟩
      · rintro ⟨rfl | h1, h2⟩
        · exact absurd rfl h2
        · exact h1
    · simp only [remove_first, if_neg hat, List.mem_cons,
        mem_remove_first xs t x hxs]
      constructor
      · rintro (rfl | ⟨h1, h2⟩)
        · exact ⟨Or.inl rfl, fun hx => hat hx⟩
        · exact ⟨Or.inr h1, h2⟩
      · rintro ⟨rfl | h1, h2⟩
        · exact Or.inl rfl
        · exact Or.inr ⟨h1, h2⟩

theorem nodup_remove_first : ∀ (l : List Nat) (t : Nat), l.Nodup → (remove_first l t).Nodup
  | [], _, _ => by simp [remove_first]
  | a :: xs, t, h => by
    rcases List.nodup_cons.mp h with ⟨ha, hxs⟩
    by_cases hat : a = t
    · simpa [remove_first, hat] using hxs
    · simp only [remove_first, if_neg hat]
      exact List.nodup_cons.mpr
        ⟨fun hx => ha (mem_remove_first_imp xs t a hx), nodup_remove_first xs t hxs⟩

theorem mem_decAbove {l : List Nat} {t b : Nat} (hl : t ∉ l) :
    b ∈ decAbove t l ↔ (if t ≤ b then b + 1 else b) ∈ l := by
  constructor
  · intro hb
    rcases List.mem_map.mp hb with ⟨x, hx, hfx⟩
    have hxt : x ≠ t := fun h => hl (h ▸ hx)
    by_cases htb : t ≤ b
    · rw [if_pos htb]
      have : x = b + 1 := by
        by_cases hlt : t < x
        · rw [if_pos hlt] at hfx; omega
        · rw [if_neg hlt] at hfx; omega
      exact this ▸ hx
    · rw [if_neg htb]
      have : x = b := by
        by_cases hlt : t < x
        · rw [if_pos hlt] at hfx; omega
        · rw [if_neg hlt] at hfx; omega
      exact this ▸ hx
  · intro hb
    by_cases htb : t ≤ b
    · rw [if_pos htb] at hb
      exact List.mem_map.mpr ⟨b + 1, hb, by rw [if_pos (show t < b + 1 by omega)]; omega⟩
    · rw [if_neg htb] at hb
      exact List.mem_map.mpr ⟨b, hb, by rw [if_neg (show ¬t < b by omega)]⟩

theorem nodup_decAbove {l : List Nat} {t : Nat} (hl : t ∉ l) (hnd : l.Nodup) :
    (decAbove t l).Nodup := by
  refine List.Nodup.map_on ?_ hnd
  intro x hx y hy hxy
  have hxt : x ≠ t := fun h => hl (h ▸ hx)
  have hyt : y ≠ t := fun h => hl (h ▸ hy)
  split_ifs at hxy <;> omega

theorem getD_eraseIdx {α : Type} [Inhabited α] :
    ∀ (vs : List α) (t a : Nat),
      (vs.eraseIdx t).getD a default =
        if a < t then vs.getD a default else vs.getD (a + 1) default
  | [], t, a => by simp [List.eraseIdx]
  | v :: rest, 0, a => by simp [List.eraseIdx]
  | v :: rest, Nat.succ s, 0 => by simp [List.eraseIdx]
  | v :: rest, Nat.succ s, Nat.succ b => by
    simp only [List.eraseIdx, List.getD_cons_succ]
    rw [getD_eraseIdx rest s b]
    by_cases h : b < s
    · rw [if_pos h, if_pos (by omega)]
    · rw [if_neg h, if_neg (by omega)]

theorem length_removeTargetAll : ∀ (vs : List Vertex) (t i : Nat),
    (removeTargetAll vs t i).length = vs.length
  | [], _, _ => rfl
  | v :: rest, t, i => by
    simp [removeTargetAll, length_removeTargetAll rest t (i + 1)]

theorem getD_removeTargetAll : ∀ (vs : List Vertex) (t i j : Nat),
    (removeTargetAll vs t i).getD j default =
      if i + j = t then vs.getD j default
      else { vs.getD j default with
             adj := remove_occurrences (vs.getD j default).adj t }
  | [], t, i, j => by
    simp only [removeTargetAll, List.getD_nil]
    split_ifs
    · rfl
    · rfl
  | v :: rest, t, i, 0 => by
    simp only [removeTargetAll, List.getD_cons_zero]
    split_ifs with h1 h2 h3
    · rfl
    · omega
    · omega
    · rfl
  | v :: rest, t, i, Nat.succ b => by
    simp only [removeTargetAll, List.getD_cons_succ]
    rw [getD_removeTargetAll rest t (i + 1) b]
    by_cases h : i + 1 + b = t
    · rw [if_pos h, if_pos (by omega)]
    · rw [if_neg h, if_neg (by omega)]

theorem getD_map_vertex (f : Vertex → Vertex) :
    ∀ (vs : List Vertex) (a : Nat), a < vs.length →
      (vs.map f).getD a default = f (vs.getD a default)
  | [], a, h => by simp at h
  | v :: rest, 0, _ => by simp
  | v :: rest, Nat.succ b, h => by
    simp only [List.map_cons, List.getD_cons_succ]
    exact getD_map_vertex f rest b (by simpa using h)

theorem getD_append_lt {α : Type} [Inhabited α] :
    ∀ (vs ws : List α) (u : Nat), u < vs.length →
      (vs ++ ws).getD u default = vs.getD u default
  | [], _, u, h => by simp at h
  | v :: rest, ws, 0, _ => by simp
  | v :: rest, ws, Nat.succ b, h => by
    simp only [List.cons_append, List.getD_cons_succ]
    exact getD_append_lt rest ws b (by simpa using h)

theorem getD_append_len {α : Type} [Inhabited α] :
    ∀ (vs : List α) (w : α), (vs ++ [w]).getD vs.length default = w
  | [], w => by simp
  | v :: rest, w => by
    simp only [List.cons_append, List.length_cons, List.getD_cons_succ]
    exact getD_append_len rest w

theorem length_eraseIdx_own {α : Type} :
    ∀ (l : List α) (i : Nat), i < l.length → (l.eraseIdx i).length = l.length - 1
  | [], _, h => by simp at h
  | a :: rest, 0, _ => by simp [List.eraseIdx]
  | a :: rest, Nat.succ j, h => by
    have hj : j < rest.length := by simpa using h
    simp only [List.eraseIdx, List.length_cons]
    rw [length_eraseIdx_own rest j hj]
    omega

/-- Closed form of the matrix transformation performed by
`remove_vertex_by_index` (row shift, then column shift, then clearing the
stale last row/column), assuming the mirror is zero outside `[0,n)²`. -/
theorem remove_matrix_spec (m : Nat → Nat → Nat) (target n : Nat)
    (hzero : ∀ a b, n ≤ a ∨ n ≤ b → m a b = 0) (ht : target < n) (a b : Nat) :
    clearLast (shiftCols (shiftRows m target n) target n) n a b =
      if a < n - 1 ∧ b < n - 1 then
        m (if target ≤ a then a + 1 else a) (if target ≤ b then b + 1 else b)
      else 0 := by
  have h1 := hzero a b
  have h2 := hzero (a + 1) b
  have h3 := hzero a (b + 1)
  have h4 := hzero (a + 1) (b + 1)
  simp only [clearLast, shiftCols, shiftRows]
  split_ifs <;> first | rfl | omega

/-! ### The maintained invariant -/

/-- The well-formedness invariant of the engine state: adjacency entries
are in range, lists are duplicate-free and self-loop-free, and the matrix
mirror agrees with the lists, is symmetric, zero outside the live range,
and 0/1-valued. -/
structure WF (g : Graph) : Prop where
  entries_lt : ∀ u, u < g.n → ∀ x ∈ adjOf g u, x < g.n
  nodup : ∀ u, u < g.n → (adjOf g u).Nodup
  no_self : ∀ u, u < g.n → u ∉ adjOf g u
  mat_list : ∀ u v, u < g.n → v < g.n → (g.adjMatrix u v ≠ 0 ↔ v ∈ adjOf g u)
  mat_zero : ∀ u v, g.n ≤ u ∨ g.n ≤ v → g.adjMatrix u v = 0
  mat_sym : ∀ u v, g.adjMatrix u v = g.adjMatrix v u
  mat01 : ∀ u v, g.adjMatrix u v = 0 ∨ g.adjMatrix u v = 1

theorem WF_init : WF init_graph := by
  refine ⟨?_, ?_, ?_, ?_, ?_, ?_, ?_⟩ <;>
    simp [init_graph, Graph.n]

theorem WF_add_vertex (g : Graph) (name : String) (h : WF g) :
    WF (add_vertex g name).2 := by
  unfold add_vertex
  split_ifs with h1 h2
  · exact h
  · exact h
  · set g' : Graph := ⟨g.vertices ++ [⟨name, []⟩], g.adjMatrix⟩ with hg'
    show WF g'
    have hn : g'.n = g.n + 1 := by simp [Graph.n, hg']
    have hadj : ∀ u, u < g.n → adjOf g' u = adjOf g u := by
      intro u hu
      show ((g.vertices ++ [(⟨name, []⟩ : Vertex)]).getD u default).adj = _
      rw [getD_append_lt g.vertices _ u hu]
      rfl
    have hadjn : adjOf g' g.n = [] := by
      show ((g.vertices ++ [(⟨name, []⟩ : Vertex)]).getD g.vertices.length default).adj = []
      rw [getD_append_len]
    refine ⟨?_, ?_, ?_, ?_, ?_, ?_, ?_⟩
    · intro u hu x hx
      rw [hn] at hu ⊢
      rcases Nat.lt_or_ge u g.n with hu' | hu'
      · rw [hadj u hu'] at hx
        exact Nat.lt_succ_of_lt (h.entries_lt u hu' x hx)
      · have : u = g.n := by omega
        rw [this, hadjn] at hx
        cases hx
    · intro u hu
      rw [hn] at hu
      rcases Nat.lt_or_ge u g.n with hu' | hu'
      · rw [hadj u hu']
        exact h.nodup u hu'
      · have : u = g.n := by omega
        rw [this, hadjn]
        exact List.nodup_nil
    · intro u hu
      rw [hn] at hu
      rcases Nat.lt_or_ge u g.n with hu' | hu'
      · rw [hadj u hu']
        exact h.no_self u hu'
      · have : u = g.n := by omega
        rw [this, hadjn]
        simp
    · intro u v hu hv
      rw [hn] at hu hv
      have hmat : g'.adjMatrix = g.adjMatrix := rfl
      rw [hmat]
      rcases Nat.lt_or_ge u g.n with hu' | hu'
      · rcases Nat.lt_or_ge v g.n with hv' | hv'
        · rw [hadj u hu']
          exact h.mat_list u v hu' hv'
        · have hv2 : v = g.n := by omega
          rw [hadj u hu', hv2]
          have hz : g.adjMatrix u g.n = 0 := h.mat_zero u g.n (Or.inr le_rfl)
          constructor
          · intro hne; exact absurd hz hne
          · intro hmem; exact absurd (h.entries_lt u hu' g.n hmem) (by omega)
      · have hu2 : u = g.n := by omega
        rw [hu2, hadjn]
        have hz : g.adjMatrix g.n v = 0 := h.mat_zero g.n v (Or.inl le_rfl)
        constructor
        · intro hne; exact absurd hz hne
        · intro hmem; cases hmem
    · intro u v huv
      rw [hn] at huv
      exact h.mat_zero u v (by omega)
    · exact h.mat_sym
    · exact h.mat01

theorem matWrite_pair_spec (m : Nat → Nat → Nat) (u v val : Nat) (a b : Nat) :
    matWrite (matWrite m u v val) v u val a b =
      if (a = u ∧ b = v) ∨ (a = v ∧ b = u) then val else m a b := by
  simp only [matWrite]
  split_ifs <;> first | rfl | omega

theorem WF_add_edge_by_index (g : Graph) (u v : Nat) (h : WF g) :
    WF (add_edge_by_index g u v).2 := by
  unfold add_edge_by_index
  split_ifs with h1 h2 h3
  · exact h
  · exact h
  · exact h
  · push_neg at h1 h3
    obtain ⟨hu, hv⟩ := h1
    have hm0 : g.adjMatrix u v = 0 := h3
    have hm0' : g.adjMatrix v u = 0 := (h.mat_sym v u).trans hm0
    have hvnot : v ∉ adjOf g u := fun hx => ((h.mat_list u v hu hv).mpr hx) hm0
    have hunot : u ∉ adjOf g v := fun hx => ((h.mat_list v u hv hu).mpr hx) hm0'
    set vs' := updateAdj (updateAdj g.vertices u (fun l => v :: l)) v (fun l => u :: l)
      with hvs
    set M := matWrite (matWrite g.adjMatrix u v 1) v u 1 with hM
    have hlen : vs'.length = g.vertices.length := by
      rw [hvs, length_updateAdj, length_updateAdj]
    have hng : (Graph.mk vs' M).n = g.n := hlen
    have hadjOf : ∀ w, adjOf (Graph.mk vs' M) w = (vs'.getD w default).adj := fun w => rfl
    have hadju : (vs'.getD u default).adj = v :: adjOf g u := by
      rw [hvs, getD_updateAdj_ne _ v _ u h2, getD_updateAdj_self _ u _ hu]
      rfl
    have hadjv : (vs'.getD v default).adj = u :: adjOf g v := by
      rw [hvs, getD_updateAdj_self _ v _ (by rw [length_updateAdj]; exact hv),
        getD_updateAdj_ne _ u _ v (fun hvu => h2 hvu.symm)]
      rfl
    have hadjw : ∀ w, w ≠ u → w ≠ v → (vs'.getD w default).adj = adjOf g w := by
      intro w hwu hwv
      rw [hvs, getD_updateAdj_ne _ v _ w hwv, getD_updateAdj_ne _ u _ w hwu]
      rfl
    have hmw : ∀ a b, M a b = if (a = u ∧ b = v) ∨ (a = v ∧ b = u) then 1
        else g.adjMatrix a b := by
      intro a b
      rw [hM]
      exact matWrite_pair_spec g.adjMatrix u v 1 a b
    refine ⟨?_, ?_, ?_, ?_, ?_, ?_, ?_⟩
    · intro a ha x hx
      rw [hng] at ha ⊢
      rw [hadjOf] at hx
      by_cases hau : a = u
      · subst hau
        rw [hadju] at hx
        rcases List.mem_cons.mp hx with rfl | hx
        · exact hv
        · exact h.entries_lt a ha x hx
      · by_cases hav : a = v
        · subst hav
          rw [hadjv] at hx
          rcases List.mem_cons.mp hx with rfl | hx
          · exact hu
          · exact h.entries_lt a ha x hx
        · rw [hadjw a hau hav] at hx
          exact h.entries_lt a ha x hx
    · intro a ha
      rw [hng] at ha
      rw [hadjOf]
      by_cases hau : a = u
      · subst hau
        rw [hadju]
        exact List.nodup_cons.mpr ⟨hvnot, h.nodup a ha⟩
      · by_cases hav : a = v
        · subst hav
          rw [hadjv]
          exact List.nodup_cons.mpr ⟨hunot, h.nodup a ha⟩
        · rw [hadjw a hau hav]
          exact h.nodup a ha
    · intro a ha
      rw [hng] at ha
      rw [hadjOf]
      by_cases hau : a = u
      · subst hau
        rw [hadju]
        intro hx
        rcases List.mem_cons.mp hx with he | hx
        · exact h2 he
        · exact h.no_self a ha hx
      · by_cases hav : a = v
        · subst hav
          rw [hadjv]
          intro hx
          rcases List.mem_cons.mp hx with he | hx
          · exact h2 he.symm
          · exact h.no_self a ha hx
        · rw [hadjw a hau hav]
          exact h.no_self a ha
    · intro a b ha hb
      rw [hng] at ha hb
      rw [hadjOf]
      show M a b ≠ 0 ↔ _
      rw [hmw a b]
      by_cases hau : a = u
      · subst hau
        by_cases hbv : b = v
        · subst hbv
          rw [if_pos (Or.inl ⟨rfl, rfl⟩), hadju]
          simp
        · rw [if_neg (by omega), hadju]
          constructor
          · intro hne
            exact List.mem_cons_of_mem v ((h.mat_list a b ha hb).mp hne)
          · intro hx
            rcases List.mem_cons.mp hx with rfl | hx
            · exact absurd rfl hbv
            · exact (h.mat_list a b ha hb).mpr hx
      · by_cases hav : a = v
        · subst hav
          by_cases hbu : b = u
          · subst hbu
            rw [if_pos (Or.inr ⟨rfl, rfl⟩), hadjv]
            simp
          · rw [if_neg (by omega), hadjv]
            constructor
            · intro hne
              exact List.mem_cons_of_mem u ((h.mat_list a b ha hb).mp hne)
            · intro hx
              rcases List.mem_cons.mp hx with rfl | hx
              · exact absurd rfl hbu
              · exact (h.mat_list a b ha hb).mpr hx
        · rw [if_neg (by omega), hadjw a hau hav]
          exact h.mat_list a b ha hb
    · intro a b hab
      rw [hng] at hab
      show M a b = 0
      rw [hmw a b, if_neg (by omega)]
      exact h.mat_zero a b hab
    · intro a b
      show M a b = M b a
      rw [hmw a b, hmw b a]
      by_cases hc : (a = u ∧ b = v) ∨ (a = v ∧ b = u)
      · rw [if_pos hc, if_pos (by tauto)]
      · rw [if_neg hc, if_neg (by tauto)]
        exact h.mat_sym a b
    · intro a b
      show M a b = 0 ∨ M a b = 1
      rw [hmw a b]
      split_ifs
      · exact Or.inr rfl
      · exact h.mat01 a b

theorem WF_remove_edge_by_index (g : Graph) (u v : Nat) (h : WF g) :
    WF (remove_edge_by_index g u v).2 := by
  unfold remove_edge_by_index
  split_ifs with h1 h2
  · exact h
  · exact h
  · push_neg at h1
    obtain ⟨hu, hv⟩ := h1
    have hvmem : v ∈ adjOf g u := (h.mat_list u v hu hv).mp h2
    have humem : u ∈ adjOf g v := (h.mat_list v u hv hu).mp (by
      rw [h.mat_sym v u]; exact h2)
    have hne : u ≠ v := fun he => h.no_self v hv (he ▸ hvmem)
    set vs' := updateAdj (updateAdj g.vertices u (fun l => remove_first l v)) v
      (fun l => remove_first l u) with hvs
    set M := matWrite (matWrite g.adjMatrix u v 0) v u 0 with hM
    have hlen : vs'.length = g.vertices.length := by
      rw [hvs, length_updateAdj, length_updateAdj]
    have hng : (Graph.mk vs' M).n = g.n := hlen
    have hadjOf : ∀ w, adjOf (Graph.mk vs' M) w = (vs'.getD w default).adj := fun w => rfl
    have hadju : (vs'.getD u default).adj = remove_first (adjOf g u) v := by
      rw [hvs, getD_updateAdj_ne _ v _ u hne, getD_updateAdj_self _ u _ hu]
      rfl
    have hadjv : (vs'.getD v default).adj = remove_first (adjOf g v) u := by
      rw [hvs, getD_updateAdj_self _ v _ (by rw [length_updateAdj]; exact hv),
        getD_updateAdj_ne _ u _ v (fun hvu => hne hvu.symm)]
      rfl
    have hadjw : ∀ w, w ≠ u → w ≠ v → (vs'.getD w default).adj = adjOf g w := by
      intro w hwu hwv
      rw [hvs, getD_updateAdj_ne _ v _ w hwv, getD_updateAdj_ne _ u _ w hwu]
      rfl
    have hmw : ∀ a b, M a b = if (a = u ∧ b = v) ∨ (a = v ∧ b = u) then 0
        else g.adjMatrix a b := by
      intro a b
      rw [hM]
      exact matWrite_pair_spec g.adjMatrix u v 0 a b
    refine ⟨?_, ?_, ?_, ?_, ?_, ?_, ?_⟩
    · intro a ha x hx
      rw [hng] at ha ⊢
      rw [hadjOf] at hx
      by_cases hau : a = u
      · subst hau
        rw [hadju] at hx
        exact h.entries_lt a ha x (mem_remove_first_imp _ _ _ hx)
      · by_cases hav : a = v
        · subst hav
          rw [hadjv] at hx
          exact h.entries_lt a ha x (mem_remove_first_imp _ _ _ hx)
        · rw [hadjw a hau hav] at hx
          exact h.entries_lt a ha x hx
    · intro a ha
      rw [hng] at ha
      rw [hadjOf]
      by_cases hau : a = u
      · subst hau
        rw [hadju]
        exact nodup_remove_first _ _ (h.nodup a ha)
      · by_cases hav : a = v
        · subst hav
          rw [hadjv]
          exact nodup_remove_first _ _ (h.nodup a ha)
        · rw [hadjw a hau hav]
          exact h.nodup a ha
    · intro a ha
      rw [hng] at ha
      rw [hadjOf]
      by_cases hau : a = u
      · subst hau
        rw [hadju]
        intro hx
        exact h.no_self a ha (mem_remove_first_imp _ _ _ hx)
      · by_cases hav : a = v
        · subst hav
          rw [hadjv]
          intro hx
          exact h.no_self a ha (mem_remove_first_imp _ _ _ hx)
        · rw [hadjw a hau hav]
          exact h.no_self a ha
    · intro a b ha hb
      rw [hng] at ha hb
      rw [hadjOf]
      show M a b ≠ 0 ↔ _
      rw [hmw a b]
      by_cases hau : a = u
      · subst hau
        rw [hadju]
        by_cases hbv : b = v
        · subst hbv
          rw [if_pos (Or.inl ⟨rfl, rfl⟩)]
          rw [mem_remove_first _ _ _ (h.nodup a ha)]
          simp
        · rw [if_neg (by omega), mem_remove_first _ _ _ (h.nodup a ha)]
          constructor
          · intro hne
            exact ⟨(h.mat_list a b ha hb).mp hne, hbv⟩
          · rintro ⟨hx, _⟩
            exact (h.mat_list a b ha hb).mpr hx
      · by_cases hav : a = v
        · subst hav
          rw [hadjv]
          by_cases hbu : b = u
          · subst hbu
            rw [if_pos (Or.inr ⟨rfl, rfl⟩)]
            rw [mem_remove_first _ _ _ (h.nodup a ha)]
            simp
          · rw [if_neg (by omega), mem_remove_first _ _ _ (h.nodup a ha)]
            constructor
            · intro hne
              exact ⟨(h.mat_list a b ha hb).mp hne, hbu⟩
            · rintro ⟨hx, _⟩
              exact (h.mat_list a b ha hb).mpr hx
        · rw [if_neg (by omega), hadjw a hau hav]
          exact h.mat_list a b ha hb
    · intro a b hab
      rw [hng] at hab
      show M a b = 0
      rw [hmw a b]
      split_ifs with hc
      · rfl
      · exact h.mat_zero a b hab
    · intro a b
      show M a b = M b a
      rw [hmw a b, hmw b a]
      by_cases hc : (a = u ∧ b = v) ∨ (a = v ∧ b = u)
      · rw [if_pos hc, if_pos (by tauto)]
      · rw [if_neg hc, if_neg (by tauto)]
        exact h.mat_sym a b
    · intro a b
      show M a b = 0 ∨ M a b = 1
      rw [hmw a b]
      split_ifs
      · exact Or.inl rfl
      · exact h.mat01 a b

theorem remove_vertex_result (g : Graph) (target : Nat) (ht : target < g.n) :
    (remove_vertex_by_index g target).2 =
      ⟨((removeTargetAll g.vertices target 0).eraseIdx target).map
          (fun v => { v with adj := decAbove target v.adj }),
        clearLast (shiftCols (shiftRows g.adjMatrix target g.n) target g.n) g.n⟩ := by
  unfold remove_vertex_by_index
  rw [if_neg (by omega)]

theorem WF_remove_vertex_by_index (g : Graph) (target : Nat) (h : WF g) :
    WF (remove_vertex_by_index g target).2 := by
  rcases Nat.lt_or_ge target g.n with ht | ht
  · rw [remove_vertex_result g target ht]
    set vs3 := ((removeTargetAll g.vertices target 0).eraseIdx target).map
      (fun v => { v with adj := decAbove target v.adj }) with hvs3
    set M := clearLast (shiftCols (shiftRows g.adjMatrix target g.n) target g.n) g.n
      with hM
    have hn1 : (removeTargetAll g.vertices target 0).length = g.vertices.length :=
      length_removeTargetAll _ _ _
    have hn2 : ((removeTargetAll g.vertices target 0).eraseIdx target).length =
        g.vertices.length - 1 := by
      rw [length_eraseIdx_own _ target (by rw [hn1]; exact ht), hn1]
    have hng : (Graph.mk vs3 M).n = g.n - 1 := by
      show vs3.length = _
      rw [hvs3, List.length_map, hn2]
      rfl
    have hbne : ∀ b : Nat, (if target ≤ b then b + 1 else b) ≠ target := by
      intro b; split_ifs <;> omega
    have htno : ∀ l : List Nat, target ∉ remove_occurrences l target := fun l hx =>
      ((mem_remove_occurrences l target target).mp hx).2 rfl
    have hadjlt : ∀ a, a < g.n - 1 → a < target → adjOf (Graph.mk vs3 M) a =
        decAbove target (remove_occurrences (adjOf g a) target) := by
      intro a ha hat
      show (vs3.getD a default).adj = _
      rw [hvs3, getD_map_vertex _ _ a (by rw [hn2]; exact ha), getD_eraseIdx,
        if_pos hat, getD_removeTargetAll, if_neg (by omega)]
      rfl
    have hadjge : ∀ a, a < g.n - 1 → target ≤ a → adjOf (Graph.mk vs3 M) a =
        decAbove target (remove_occurrences (adjOf g (a + 1)) target) := by
      intro a ha hat
      show (vs3.getD a default).adj = _
      rw [hvs3, getD_map_vertex _ _ a (by rw [hn2]; exact ha), getD_eraseIdx,
        if_neg (by omega), getD_removeTargetAll, if_neg (by omega)]
      rfl
    have hmem : ∀ a b, a < g.n - 1 →
        (b ∈ adjOf (Graph.mk vs3 M) a ↔
          (if target ≤ b then b + 1 else b) ∈ adjOf g (if target ≤ a then a + 1 else a)) := by
      intro a b ha
      by_cases hat : target ≤ a
      · rw [hadjge a ha hat, if_pos hat, mem_decAbove (htno _), mem_remove_occurrences]
        constructor
        · exact fun hx => hx.1
        · exact fun hx => ⟨hx, hbne b⟩
      · rw [hadjlt a ha (by omega), if_neg hat, mem_decAbove (htno _),
          mem_remove_occurrences]
        constructor
        · exact fun hx => hx.1
        · exact fun hx => ⟨hx, hbne b⟩
    have hmat : ∀ a b, M a b = if a < g.n - 1 ∧ b < g.n - 1 then
        g.adjMatrix (if target ≤ a then a + 1 else a) (if target ≤ b then b + 1 else b)
        else 0 := by
      intro a b
      rw [hM]
      exact remove_matrix_spec g.adjMatrix target g.n h.mat_zero ht a b
    have hidx : ∀ a : Nat, a < g.n - 1 → (if target ≤ a then a + 1 else a) < g.n := by
      intro a ha; split_ifs <;> omega
    refine ⟨?_, ?_, ?_, ?_, ?_, ?_, ?_⟩
    · intro a ha x hx
      rw [hng] at ha ⊢
      by_cases hat : target ≤ a
      · rw [hadjge a ha hat] at hx
        obtain ⟨y, hy, hfy⟩ := List.mem_map.mp hx
        obtain ⟨hy1, hy2⟩ := (mem_remove_occurrences _ _ _).mp hy
        have hylt : y < g.n := h.entries_lt (a + 1) (by omega) y hy1
        split_ifs at hfy <;> omega
      · rw [hadjlt a ha (by omega)] at hx
        obtain ⟨y, hy, hfy⟩ := List.mem_map.mp hx
        obtain ⟨hy1, hy2⟩ := (mem_remove_occurrences _ _ _).mp hy
        have hylt : y < g.n := h.entries_lt a (by omega) y hy1
        split_ifs at hfy <;> omega
    · intro a ha
      rw [hng] at ha
      by_cases hat : target ≤ a
      · rw [hadjge a ha hat]
        exact nodup_decAbove (htno _) (nodup_remove_occurrences _ _
          (h.nodup (a + 1) (by omega)))
      · rw [hadjlt a ha (by omega)]
        exact nodup_decAbove (htno _) (nodup_remove_occurrences _ _
          (h.nodup a (by omega)))
    · intro a ha hx
      rw [hng] at ha
      rw [hmem a a ha] at hx
      by_cases hat : target ≤ a
      · rw [if_pos hat] at hx
        exact h.no_self (a + 1) (by omega) hx
      · rw [if_neg hat] at hx
        exact h.no_self a (by omega) hx
    · intro a b ha hb
      rw [hng] at ha hb
      show M a b ≠ 0 ↔ _
      rw [hmat a b, if_pos ⟨ha, hb⟩, hmem a b ha]
      exact h.mat_list _ _ (hidx a ha) (hidx b hb)
    · intro a b hab
      rw [hng] at hab
      show M a b = 0
      rw [hmat a b, if_neg (by omega)]
    · intro a b
      show M a b = M b a
      rw [hmat a b, hmat b a]
      by_cases hc : a < g.n - 1 ∧ b < g.n - 1
      · have hc' : b < g.n - 1 ∧ a < g.n - 1 := ⟨hc.2, hc.1⟩
        rw [if_pos hc, if_pos hc']
        exact h.mat_sym _ _
      · have hc' : ¬(b < g.n - 1 ∧ a < g.n - 1) := fun hh => hc ⟨hh.2, hh.1⟩
        rw [if_neg hc, if_neg hc']
    · intro a b
      show M a b = 0 ∨ M a b = 1
      rw [hmat a b]
      by_cases hc : a < g.n - 1 ∧ b < g.n - 1
      · rw [if_pos hc]
        exact h.mat01 _ _
      · rw [if_neg hc]
        exact Or.inl rfl
  · show WF (if target ≥ g.n then ((-1 : Int), g) else _).2
    rw [if_pos (by omega)]
    exact h

theorem WF_add_edge (g : Graph) (n1 n2 : String) (h : WF g) : WF (add_edge g n1 n2).2 := by
  simp only [add_edge]
  split_ifs with hc
  · exact h
  · exact WF_add_edge_by_index g _ _ h

theorem WF_remove_edge (g : Graph) (n1 n2 : String) (h : WF g) :
    WF (remove_edge g n1 n2).2 := by
  simp only [remove_edge]
  split_ifs with hc
  · exact h
  · exact WF_remove_edge_by_index g _ _ h

theorem WF_remove_vertex (g : Graph) (a : String) (h : WF g) : WF (remove_vertex g a).2 := by
  simp only [remove_vertex]
  split_ifs with hc
  · exact h
  · exact WF_remove_vertex_by_index g _ h

theorem WF_applyOp (g : Graph) (op : Op) (h : WF g) : WF (applyOp g op) := by
  cases op with
  | addV name => exact WF_add_vertex g name h
  | addEIdx u v => exact WF_add_edge_by_index g u v h
  | addEName a b => exact WF_add_edge g a b h
  | remEIdx u v => exact WF_remove_edge_by_index g u v h
  | remEName a b => exact WF_remove_edge g a b h
  | remVIdx t => exact WF_remove_vertex_by_index g t h
  | remVName a => exact WF_remove_vertex g a h

theorem WF_foldl : ∀ (ops : List Op) (g : Graph), WF g → WF (ops.foldl applyOp g)
  | [], _, h => h
  | op :: rest, g, h => WF_foldl rest _ (WF_applyOp g op h)

theorem WF_runOps (ops : List Op) : WF (runOps ops) :=
  WF_foldl ops init_graph WF_init

/-! ### BFS correctness -/

theorem bfs_push_spec (U : Finset Nat) :
    ∀ (adj : List Nat) (hadj : ∀ x ∈ adj, x ∈ U) (visited : Finset Nat)
      (hv : visited ⊆ U) (queue : List Nat),
      (∀ x ∈ queue, x ∈ visited) → queue.Nodup →
      ((bfs_push U adj hadj visited hv queue).1.1 = visited ∪ adj.toFinset ∧
        (∀ x ∈ (bfs_push U adj hadj visited hv queue).1.2,
          x ∈ (bfs_push U adj hadj visited hv queue).1.1) ∧
        (bfs_push U adj hadj visited hv queue).1.2.Nodup ∧
        (∀ x ∈ queue, x ∈ (bfs_push U adj hadj visited hv queue).1.2) ∧
        (∀ x ∈ (bfs_push U adj hadj visited hv queue).1.2, x ∈ queue ∨ x ∉ visited) ∧
        (∀ x ∈ adj, x ∈ visited ∨ x ∈ (bfs_push U adj hadj visited hv queue).1.2))
  | [], hadj, visited, hv, queue, hq, hnd => by
    simp only [bfs_push]
    exact ⟨by simp, hq, hnd, fun x hx => hx, fun x hx => Or.inl hx,
      fun x hx => absurd hx (List.not_mem_nil x)⟩
  | v :: rest, hadj, visited, hv, queue, hq, hnd => by
    by_cases hmem : v ∈ visited
    · simp only [bfs_push, dif_pos hmem]
      obtain ⟨h1, h2, h3, h4, h5, h6⟩ := bfs_push_spec U rest
        (fun x hx => hadj x (List.mem_cons_of_mem v hx)) visited hv queue hq hnd
      refine ⟨?_, h2, h3, h4, h5, ?_⟩
      · rw [h1, List.toFinset_cons, Finset.union_insert,
          Finset.insert_eq_self.mpr (Finset.mem_union_left _ hmem)]
      · intro x hx
        rcases List.mem_cons.mp hx with rfl | hx
        · exact Or.inl hmem
        · exact h6 x hx
    · simp only [bfs_push, dif_neg hmem]
      have hvU : insert v visited ⊆ U :=
        Finset.insert_subset (hadj v (List.mem_cons_self v rest)) hv
      have hq' : ∀ x ∈ queue ++ [v], x ∈ insert v visited := by
        intro x hx
        rcases List.mem_append.mp hx with hx | hx
        · exact Finset.mem_insert_of_mem (hq x hx)
        · rw [List.mem_singleton.mp hx]
          exact Finset.mem_insert_self v visited
      have hnd' : (queue ++ [v]).Nodup := by
        rw [List.nodup_append]
        exact ⟨hnd, List.nodup_singleton v,
          fun x hx hx2 => hmem ((List.mem_singleton.mp hx2) ▸ hq x hx)⟩
      obtain ⟨h1, h2, h3, h4, h5, h6⟩ := bfs_push_spec U rest
        (fun x hx => hadj x (List.mem_cons_of_mem v hx)) (insert v visited) hvU
        (queue ++ [v]) hq' hnd'
      have hvq : v ∈ (bfs_push U rest
          (fun x hx => hadj x (List.mem_cons_of_mem v hx)) (insert v visited) hvU
          (queue ++ [v])).1.2 :=
        h4 v (List.mem_append_right queue (List.mem_singleton_self v))
      refine ⟨?_, h2, h3, ?_, ?_, ?_⟩
      · rw [List.toFinset_cons]
        exact h1.trans (by rw [Finset.insert_union, Finset.union_insert])
      · intro x hx
        exact h4 x (List.mem_append_left _ hx)
      · intro x hx
        rcases h5 x hx with hx2 | hx2
        · rcases List.mem_append.mp hx2 with hx3 | hx3
          · exact Or.inl hx3
          · exact Or.inr ((List.mem_singleton.mp hx3) ▸ hmem)
        · exact Or.inr (fun hxv => hx2 (Finset.mem_insert_of_mem hxv))
      · intro x hx
        rcases List.mem_cons.mp hx with rfl | hx
        · exact Or.inr hvq
        · rcases h6 x hx with hx2 | hx2
          · rcases Finset.mem_insert.mp hx2 with rfl | hx3
            · exact Or.inr hvq
            · exact Or.inl hx3
          · exact Or.inr hx2

theorem bfs_loop_spec (g : Graph) (U : Finset Nat) (hU : ∀ u, ∀ x ∈ adjOf g u, x ∈ U)
    (queue : List Nat) (visited : Finset Nat) (hv : visited ⊆ U) :
    (∀ x ∈ queue, x ∈ visited) → queue.Nodup →
    ((∀ x ∈ queue, x ∈ (bfs_loop g U hU queue visited hv).1) ∧
      (bfs_loop g U hU queue visited hv).1.Nodup ∧
      (∀ x ∈ (bfs_loop g U hU queue visited hv).1, x ∈ queue ∨ x ∉ visited) ∧
      (∀ x ∈ (bfs_loop g U hU queue visited hv).1, ∀ y ∈ adjOf g x,
        y ∈ (bfs_loop g U hU queue visited hv).1 ∨ y ∈ visited)) := by
  induction queue, visited, hv using bfs_loop.induct g U hU with
  | case1 visited hv =>
    intro hq hnd
    simp only [bfs_loop]
    exact ⟨by simp, List.nodup_nil, by simp, by simp⟩
  | case2 u rest visited hv v2 q2 hsub hU2 hle heq hvU ih =>
    intro hq hnd
    have hrest_nd : rest.Nodup := (List.nodup_cons.mp hnd).2
    have hu_notin_rest : u ∉ rest := (List.nodup_cons.mp hnd).1
    have hq_rest : ∀ x ∈ rest, x ∈ visited := fun x hx => hq x (List.mem_cons_of_mem u hx)
    have hu_vis : u ∈ visited := hq u (List.mem_cons_self u rest)
    obtain ⟨p1, p2, p3, p4, p5, p6⟩ := bfs_push_spec U (adjOf g u) (hU u) visited hv
      rest hq_rest hrest_nd
    have hmk : (bfs_push U (adjOf g u) (hU u) visited hv rest).1 = (v2, q2) :=
      congrArg Subtype.val heq
    have hmk1 : (bfs_push U (adjOf g u) (hU u) visited hv rest).1.1 = v2 := by rw [hmk]
    have hmk2 : (bfs_push U (adjOf g u) (hU u) visited hv rest).1.2 = q2 := by rw [hmk]
    rw [hmk1] at p1 p2
    rw [hmk2] at p2 p3 p4 p5 p6
    obtain ⟨i1, i2, i3, i4⟩ := ih p2 p3
    simp only [bfs_loop]
    rw [heq]
    refine ⟨?_, ?_, ?_, ?_⟩
    · intro x hx
      rcases List.mem_cons.mp hx with rfl | hx
      · exact List.mem_cons_self _ _
      · exact List.mem_cons_of_mem u (i1 x (p4 x hx))
    · refine List.nodup_cons.mpr ⟨?_, i2⟩
      intro hx
      rcases i3 u hx with hx2 | hx2
      · rcases p5 u hx2 with h3 | h3
        · exact hu_notin_rest h3
        · exact h3 hu_vis
      · exact hx2 (p1 ▸ Finset.mem_union_left _ hu_vis)
    · intro x hx
      rcases List.mem_cons.mp hx with rfl | hx
      · exact Or.inl (List.mem_cons_self _ _)
      · rcases i3 x hx with hx2 | hx2
        · rcases p5 x hx2 with h3 | h3
          · exact Or.inl (List.mem_cons_of_mem u h3)
          · exact Or.inr h3
        · exact Or.inr (fun hxv => hx2 (p1 ▸ Finset.mem_union_left _ hxv))
    · intro x hx y hy
      rcases List.mem_cons.mp hx with rfl | hx
      · rcases p6 y hy with h3 | h3
        · exact Or.inr h3
        · exact Or.inl (List.mem_cons_of_mem _ (i1 y h3))
      · rcases i4 x hx y hy with h3 | h3
        · exact Or.inl (List.mem_cons_of_mem u h3)
        · rw [p1] at h3
          rcases Finset.mem_union.mp h3 with h4 | h4
          · exact Or.inr h4
          · rcases p6 y (List.mem_toFinset.mp h4) with h5 | h5
            · exact Or.inr h5
            · exact Or.inl (List.mem_cons_of_mem u (i1 y h5))

theorem bfs_loop_sound (g : Graph) (U : Finset Nat) (hU : ∀ u, ∀ x ∈ adjOf g u, x ∈ U)
    (P : Nat → Prop) (hP : ∀ x y, P x → y ∈ adjOf g x → P y)
    (queue : List Nat) (visited : Finset Nat) (hv : visited ⊆ U) :
    (∀ x ∈ queue, x ∈ visited) → queue.Nodup → (∀ x ∈ visited, P x) →
    ∀ x ∈ (bfs_loop g U hU queue visited hv).1, P x := by
  induction queue, visited, hv using bfs_loop.induct g U hU with
  | case1 visited hv =>
    intro _ _ _ x hx
    simp [bfs_loop] at hx
  | case2 u rest visited hv v2 q2 hsub hU2 hle heq hvU ih =>
    intro hq hnd hvP x hx
    have hrest_nd : rest.Nodup := (List.nodup_cons.mp hnd).2
    have hq_rest : ∀ z ∈ rest, z ∈ visited := fun z hz => hq z (List.mem_cons_of_mem u hz)
    have hu_vis : u ∈ visited := hq u (List.mem_cons_self u rest)
    obtain ⟨p1, p2, p3, _, _, _⟩ := bfs_push_spec U (adjOf g u) (hU u) visited hv
      rest hq_rest hrest_nd
    have hmk : (bfs_push U (adjOf g u) (hU u) visited hv rest).1 = (v2, q2) :=
      congrArg Subtype.val heq
    have hmk1 : (bfs_push U (adjOf g u) (hU u) visited hv rest).1.1 = v2 := by rw [hmk]
    have hmk2 : (bfs_push U (adjOf g u) (hU u) visited hv rest).1.2 = q2 := by rw [hmk]
    rw [hmk1] at p1 p2
    rw [hmk2] at p2 p3
    have hv2P : ∀ z ∈ v2, P z := by
      intro z hz
      rw [p1] at hz
      rcases Finset.mem_union.mp hz with hz2 | hz2
      · exact hvP z hz2
      · exact hP u z (hvP u hu_vis) (List.mem_toFinset.mp hz2)
    simp only [bfs_loop] at hx
    rw [heq] at hx
    rcases List.mem_cons.mp hx with rfl | hx
    · exact hvP x hu_vis
    · exact ih p2 p3 hv2P x hx

theorem bfs_run_start_lt (g : Graph) (start : Nat) (hs : start < g.n) :
    (bfs_run g start).1 = (bfs_loop g (travU g start) (travU_spec g start) [start] {start}
      (Finset.singleton_subset_iff.mpr (Finset.mem_insert_self start _))).1 := by
  simp only [bfs_run, dif_pos hs]

theorem bfs_run_nodup (g : Graph) (start : Nat) (hs : start < g.n) :
    (bfs_run g start).1.Nodup := by
  rw [bfs_run_start_lt g start hs]
  exact (bfs_loop_spec g (travU g start) (travU_spec g start) [start] {start} _
    (by simp) (List.nodup_singleton start)).2.1

theorem bfs_run_mem (g : Graph) (start : Nat) (hs : start < g.n) (v : Nat) :
    v ∈ (bfs_run g start).1 ↔ Reaches g start v := by
  rw [bfs_run_start_lt g start hs]
  obtain ⟨c1, c2, c3, c4⟩ := bfs_loop_spec g (travU g start) (travU_spec g start)
    [start] {start} (Finset.singleton_subset_iff.mpr (Finset.mem_insert_self start _))
    (by simp) (List.nodup_singleton start)
  constructor
  · intro hv
    refine bfs_loop_sound g (travU g start) (travU_spec g start) (Reaches g start)
      (fun x y hx hy => Relation.ReflTransGen.tail hx hy) [start] {start} _
      (by simp) (List.nodup_singleton start) ?_ v hv
    intro x hx
    rw [Finset.mem_singleton.mp hx]
    exact Relation.ReflTransGen.refl
  · intro hr
    have hr' : Relation.ReflTransGen (EdgeRel g) start v := hr
    clear hr
    induction hr' with
    | refl => exact c1 start (List.mem_singleton_self start)
    | tail hab hbc ih =>
      rcases c4 _ ih _ hbc with h | h
      · exact h
      · rw [Finset.mem_singleton.mp h]
        exact c1 start (List.mem_singleton_self start)

theorem bfs_run_head (g : Graph) (start : Nat) (hs : start < g.n) :
    ∃ t, (bfs_run g start).1 = start :: t := by
  rw [bfs_run_start_lt g start hs]
  rcases heq : bfs_push (travU g start) (adjOf g start) (travU_spec g start start)
      {start} (Finset.singleton_subset_iff.mpr (Finset.mem_insert_self start _)) []
    with ⟨⟨v2, q2⟩, ha, hb, hc⟩
  simp only [bfs_loop]
  rw [heq]
  exact ⟨_, rfl⟩

/-! ### DFS correctness -/

theorem dfs_util_spec (g : Graph) (U : Finset Nat) (hU : ∀ u, ∀ x ∈ adjOf g u, x ∈ U)
    (l : List Nat) (hl : ∀ x ∈ l, x ∈ U) (visited : Finset Nat) (hv : visited ⊆ U) :
    ((dfs_util g U hU l hl visited hv).1.1 =
        visited ∪ (dfs_util g U hU l hl visited hv).1.2.1.toFinset ∧
      (∀ x ∈ l, x ∈ (dfs_util g U hU l hl visited hv).1.1) ∧
      (∀ x ∈ (dfs_util g U hU l hl visited hv).1.2.1, ∀ y ∈ adjOf g x,
        y ∈ (dfs_util g U hU l hl visited hv).1.1) ∧
      (∀ x ∈ (dfs_util g U hU l hl visited hv).1.2.1, x ∉ visited) ∧
      (dfs_util g U hU l hl visited hv).1.2.1.Nodup) := by
  induction l, hl, visited, hv using dfs_util.induct g U hU with
  | case1 hl visited hv _ _ =>
    simp only [dfs_util]
    exact ⟨by simp, by simp, by simp, by simp, List.nodup_nil⟩
  | case2 v rest hl visited hv hmem _ _ ih =>
    simp only [dfs_util, dif_pos hmem]
    obtain ⟨i1, i2, i3, i4, i5⟩ := ih
    refine ⟨i1, ?_, i3, i4, i5⟩
    intro x hx
    rcases List.mem_cons.mp hx with rfl | hx
    · exact i1 ▸ Finset.mem_union_left _ hmem
    · exact i2 x hx
  | case3 v rest hl visited hv hmem hvU vin oin gin hin1 hin2 heq1 vaf oaf gaf haf1 haf2
      heq2 _ _ ih1 ih2 =>
    have e1 : (dfs_util g U hU (adjOf g v) (hU v) (insert v visited) hvU).1 =
        (vin, oin, gin) := congrArg Subtype.val heq1
    have e1a : (dfs_util g U hU (adjOf g v) (hU v) (insert v visited) hvU).1.1 = vin := by
      rw [e1]
    have e1b : (dfs_util g U hU (adjOf g v) (hU v) (insert v visited) hvU).1.2.1 = oin := by
      rw [e1]
    obtain ⟨i1, i2, i3, i4, i5⟩ := ih1
    rw [e1a] at i1 i2 i3
    rw [e1b] at i1 i3 i4 i5
    have hinsub : insert v visited ⊆ vin := hin1
    obtain ⟨a1, a2, a3, a4, a5⟩ := ih2
    have e2 : (dfs_util g U hU rest (fun x hx => hl x (List.mem_cons_of_mem v hx))
        vin hin2).1 = (vaf, oaf, gaf) := congrArg Subtype.val heq2
    have e2a : (dfs_util g U hU rest (fun x hx => hl x (List.mem_cons_of_mem v hx))
        vin hin2).1.1 = vaf := by rw [e2]
    have e2b : (dfs_util g U hU rest (fun x hx => hl x (List.mem_cons_of_mem v hx))
        vin hin2).1.2.1 = oaf := by rw [e2]
    rw [e2a] at a1 a2 a3
    rw [e2b] at a1 a3 a4 a5
    have hvin_sub : vin ⊆ vaf := by
      rw [a1]
      exact Finset.subset_union_left
    simp only [dfs_util, dif_neg hmem]
    rw [heq1]
    dsimp only
    rw [heq2]
    dsimp only
    refine ⟨?_, ?_, ?_, ?_, ?_⟩
    · show vaf = visited ∪ (v :: (oin ++ oaf)).toFinset
      rw [a1, i1]
      ext x
      simp only [Finset.mem_union, Finset.mem_insert, List.mem_toFinset, List.toFinset_cons,
        List.toFinset_append, List.mem_cons, List.mem_append]
      tauto
    · intro x hx
      rcases List.mem_cons.mp hx with rfl | hx
      · exact hvin_sub (hinsub (Finset.mem_insert_self x visited))
      · exact a2 x hx
    · intro x hx y hy
      show y ∈ vaf
      rcases List.mem_cons.mp hx with rfl | hx
      · exact hvin_sub (i2 y hy)
      · rcases List.mem_append.mp hx with hx2 | hx2
        · exact hvin_sub (i3 x hx2 y hy)
        · exact a3 x hx2 y hy
    · intro x hx
      rcases List.mem_cons.mp hx with rfl | hx
      · exact hmem
      · rcases List.mem_append.mp hx with hx2 | hx2
        · exact fun hxv => i4 x hx2 (Finset.mem_insert_of_mem hxv)
        · exact fun hxv => a4 x hx2 (hinsub (Finset.mem_insert_of_mem hxv))
    · show (v :: (oin ++ oaf)).Nodup
      refine List.nodup_cons.mpr ⟨?_, ?_⟩
      · intro hx
        rcases List.mem_append.mp hx with hx2 | hx2
        · exact i4 v hx2 (Finset.mem_insert_self v visited)
        · exact a4 v hx2 (hinsub (Finset.mem_insert_self v visited))
      · rw [List.nodup_append]
        refine ⟨i5, a5, ?_⟩
        intro x hx hx2
        exact a4 x hx2 (i1 ▸ Finset.mem_union_right _ (List.mem_toFinset.mpr hx))

theorem dfs_util_sound (g : Graph) (U : Finset Nat) (hU : ∀ u, ∀ x ∈ adjOf g u, x ∈ U)
    (P : Nat → Prop) (hP : ∀ x y, P x → y ∈ adjOf g x → P y)
    (l : List Nat) (hl : ∀ x ∈ l, x ∈ U) (visited : Finset Nat) (hv : visited ⊆ U) :
    (∀ x ∈ visited, P x) → (∀ x ∈ l, P x) →
    ∀ x ∈ (dfs_util g U hU l hl visited hv).1.1, P x := by
  induction l, hl, visited, hv using dfs_util.induct g U hU with
  | case1 hl visited hv _ _ =>
    intro hvP _ x hx
    simp only [dfs_util] at hx
    exact hvP x hx
  | case2 v rest hl visited hv hmem _ _ ih =>
    intro hvP hlP
    simp only [dfs_util, dif_pos hmem]
    exact ih hvP (fun x hx => hlP x (List.mem_cons_of_mem v hx))
  | case3 v rest hl visited hv hmem hvU vin oin gin hin1 hin2 heq1 vaf oaf gaf haf1 haf2
      heq2 _ _ ih1 ih2 =>
    intro hvP hlP
    have hPv : P v := hlP v (List.mem_cons_self v rest)
    have e1a : (dfs_util g U hU (adjOf g v) (hU v) (insert v visited) hvU).1.1 = vin := by
      rw [congrArg Subtype.val heq1]
    have hvinP : ∀ x ∈ vin, P x := by
      have := ih1 (fun x hx => by
        rcases Finset.mem_insert.mp hx with rfl | hx2
        · exact hPv
        · exact hvP x hx2) (fun y hy => hP v y hPv hy)
      intro x hx
      exact this x (e1a ▸ hx)
    have e2a : (dfs_util g U hU rest (fun x hx => hl x (List.mem_cons_of_mem v hx))
        vin hin2).1.1 = vaf := by rw [congrArg Subtype.val heq2]
    have hvafP : ∀ x ∈ vaf, P x := by
      have := ih2 hvinP (fun x hx => hlP x (List.mem_cons_of_mem v hx))
      intro x hx
      exact this x (e2a ▸ hx)
    simp only [dfs_util, dif_neg hmem]
    rw [heq1]
    dsimp only
    rw [heq2]
    dsimp only
    exact hvafP

theorem start_mem_travU (g : Graph) (start : Nat) : ∀ x ∈ [start], x ∈ travU g start := by
  intro x hx
  rw [List.mem_singleton.mp hx]
  exact Finset.mem_insert_self start _

theorem dfs_run_start_lt (g : Graph) (start : Nat) (hs : start < g.n) :
    (dfs_run g start).1 = (dfs_util g (travU g start) (travU_spec g start) [start]
      (start_mem_travU g start) ∅ (Finset.empty_subset _)).1.2.1 := by
  simp only [dfs_run, dif_pos hs]

theorem dfs_run_nodup (g : Graph) (start : Nat) (hs : start < g.n) :
    (dfs_run g start).1.Nodup := by
  rw [dfs_run_start_lt g start hs]
  exact (dfs_util_spec g (travU g start) (travU_spec g start) [start]
    (start_mem_travU g start) ∅ (Finset.empty_subset _)).2.2.2.2

theorem dfs_run_mem (g : Graph) (start : Nat) (hs : start < g.n) (v : Nat) :
    v ∈ (dfs_run g start).1 ↔ Reaches g start v := by
  rw [dfs_run_start_lt g start hs]
  obtain ⟨d1, d2, d3, d4, d5⟩ := dfs_util_spec g (travU g start) (travU_spec g start)
    [start] (start_mem_travU g start) ∅ (Finset.empty_subset _)
  have hVord : ∀ x, x ∈ (dfs_util g (travU g start) (travU_spec g start) [start]
      (start_mem_travU g start) ∅ (Finset.empty_subset _)).1.1 ↔
      x ∈ (dfs_util g (travU g start) (travU_spec g start) [start]
      (start_mem_travU g start) ∅ (Finset.empty_subset _)).1.2.1 := by
    intro x
    rw [d1]
    simp
  constructor
  · intro hv
    refine dfs_util_sound g (travU g start) (travU_spec g start) (Reaches g start)
      (fun x y hx hy => Relation.ReflTransGen.tail hx hy) [start]
      (start_mem_travU g start) ∅ (Finset.empty_subset _) (by simp) ?_ v
      ((hVord v).mpr hv)
    intro x hx
    rw [List.mem_singleton.mp hx]
    exact Relation.ReflTransGen.refl
  · intro hr
    have hr' : Relation.ReflTransGen (EdgeRel g) start v := hr
    clear hr
    induction hr' with
    | refl => exact (hVord start).mp (d2 start (List.mem_singleton_self start))
    | tail hab hbc ih => exact (hVord _).mp (d3 _ ih _ hbc)

/-! ### The queries never modify the graph -/

theorem bfs_loop_graph (g : Graph) (U : Finset Nat) (hU : ∀ u, ∀ x ∈ adjOf g u, x ∈ U)
    (queue : List Nat) (visited : Finset Nat) (hv : visited ⊆ U) :
    (bfs_loop g U hU queue visited hv).2 = g := by
  induction queue, visited, hv using bfs_loop.induct g U hU with
  | case1 visited hv => simp [bfs_loop]
  | case2 u rest visited hv v2 q2 hsub hU2 hle heq hvU ih =>
    simp only [bfs_loop]
    rw [heq]
    exact ih

theorem bfs_run_graph (g : Graph) (start : Nat) : (bfs_run g start).2 = g := by
  unfold bfs_run
  split_ifs with hs
  · exact bfs_loop_graph g _ _ _ _ _
  · rfl

theorem dfs_util_graph (g : Graph) (U : Finset Nat) (hU : ∀ u, ∀ x ∈ adjOf g u, x ∈ U)
    (l : List Nat) (hl : ∀ x ∈ l, x ∈ U) (visited : Finset Nat) (hv : visited ⊆ U) :
    (dfs_util g U hU l hl visited hv).1.2.2 = g := by
  induction l, hl, visited, hv using dfs_util.induct g U hU with
  | case1 hl visited hv _ _ => simp [dfs_util]
  | case2 v rest hl visited hv hmem _ _ ih =>
    simp only [dfs_util, dif_pos hmem]
    exact ih
  | case3 v rest hl visited hv hmem hvU vin oin gin hin1 hin2 heq1 vaf oaf gaf haf1 haf2
      heq2 _ _ ih1 ih2 =>
    have e2 : (dfs_util g U hU rest (fun x hx => hl x (List.mem_cons_of_mem v hx))
        vin hin2).1 = (vaf, oaf, gaf) := congrArg Subtype.val heq2
    have e2c : (dfs_util g U hU rest (fun x hx => hl x (List.mem_cons_of_mem v hx))
        vin hin2).1.2.2 = gaf := by rw [e2]
    simp only [dfs_util, dif_neg hmem]
    rw [heq1]
    dsimp only
    rw [heq2]
    dsimp only
    exact e2c.symm.trans ih2

theorem dfs_run_graph (g : Graph) (start : Nat) : (dfs_run g start).2 = g := by
  unfold dfs_run
  split_ifs with hs
  · exact dfs_util_graph g _ _ _ _ _ _
  · rfl

theorem find_vertex_index_loop_graph (name : String) (g : Graph) :
    ∀ (vs : List Vertex) (i : Nat), (find_vertex_index_loop vs name i g).2 = g
  | [], _ => rfl
  | v :: rest, i => by
    by_cases hn : v.name = name
    · simp only [find_vertex_index_loop, if_pos hn]
    · simp only [find_vertex_index_loop, if_neg hn]
      exact find_vertex_index_loop_graph name g rest (i + 1)

/-! ### `find_vertex_index` characterization -/

theorem find_loop_neg_iff (name : String) (g : Graph) :
    ∀ (vs : List Vertex) (i : Nat),
      ((find_vertex_index_loop vs name i g).1 = -1 ↔ ∀ v ∈ vs, v.name ≠ name)
  | [], i => by simp [find_vertex_index_loop]
  | v :: rest, i => by
    by_cases hn : v.name = name
    · simp only [find_vertex_index_loop, if_pos hn]
      constructor
      · intro h
        exact absurd h (by omega)
      · intro h
        exact absurd hn (h v (List.mem_cons_self v rest))
    · simp only [find_vertex_index_loop, if_neg hn]
      rw [find_loop_neg_iff name g rest (i + 1)]
      constructor
      · intro h w hw
        rcases List.mem_cons.mp hw with rfl | hw2
        · exact hn
        · exact h w hw2
      · intro h w hw
        exact h w (List.mem_cons_of_mem v hw)
  termination_by vs _ => vs.length

theorem find_loop_append (name : String) (g : Graph) (w : Vertex) (hw : w.name = name) :
    ∀ (vs : List Vertex) (i : Nat), (∀ v ∈ vs, v.name ≠ name) →
      (find_vertex_index_loop (vs ++ [w]) name i g).1 = ((i + vs.length : Nat) : Int)
  | [], i, _ => by simp [find_vertex_index_loop, hw]
  | v :: rest, i, hno => by
    have hn : v.name ≠ name := hno v (List.mem_cons_self v rest)
    have hrec := find_loop_append name g w hw rest (i + 1)
      (fun x hx => hno x (List.mem_cons_of_mem v hx))
    simp only [List.cons_append, find_vertex_index_loop, if_neg hn]
    show (find_vertex_index_loop (rest ++ [w]) name (i + 1) g).1 =
      ((i + (v :: rest).length : Nat) : Int)
    rw [hrec]
    congr 1
    simp only [List.length_cons]
    omega

theorem find_vertex_index_neg_iff (g : Graph) (name : String) :
    find_vertex_index g name = -1 ↔ ∀ v ∈ g.vertices, v.name ≠ name := by
  unfold find_vertex_index
  exact find_loop_neg_iff name g g.vertices 0

/-! ### Error paths leave the graph untouched; success paths are atomic -/

theorem add_vertex_err (g : Graph) (name : String) :
    (add_vertex g name).1 ≠ 0 → (add_vertex g name).2 = g := by
  unfold add_vertex
  split_ifs <;> intro h
  · rfl
  · rfl
  · exact absurd rfl h

theorem add_edge_by_index_err (g : Graph) (u v : Nat) :
    (add_edge_by_index g u v).1 ≠ 0 → (add_edge_by_index g u v).2 = g := by
  unfold add_edge_by_index
  split_ifs <;> intro h
  · rfl
  · rfl
  · rfl
  · exact absurd rfl h

theorem add_edge_err (g : Graph) (n1 n2 : String) :
    (add_edge g n1 n2).1 ≠ 0 → (add_edge g n1 n2).2 = g := by
  simp only [add_edge]
  split_ifs
  · intro _
    rfl
  · exact add_edge_by_index_err g _ _

theorem remove_edge_by_index_err (g : Graph) (u v : Nat) :
    (remove_edge_by_index g u v).1 ≠ 0 → (remove_edge_by_index g u v).2 = g := by
  unfold remove_edge_by_index
  split_ifs <;> intro h
  · rfl
  · rfl
  · exact absurd rfl h

theorem remove_edge_err (g : Graph) (n1 n2 : String) :
    (remove_edge g n1 n2).1 ≠ 0 → (remove_edge g n1 n2).2 = g := by
  simp only [remove_edge]
  split_ifs
  · intro _
    rfl
  · exact remove_edge_by_index_err g _ _

theorem remove_vertex_by_index_err (g : Graph) (t : Nat) :
    (remove_vertex_by_index g t).1 ≠ 0 → (remove_vertex_by_index g t).2 = g := by
  unfold remove_vertex_by_index
  split_ifs <;> intro h
  · rfl
  · exact absurd rfl h

theorem remove_vertex_err (g : Graph) (name : String) :
    (remove_vertex g name).1 ≠ 0 → (remove_vertex g name).2 = g := by
  simp only [remove_vertex]
  split_ifs
  · intro _
    rfl
  · exact remove_vertex_by_index_err g _

theorem add_edge_by_index_success (g : Graph) (u v : Nat)
    (h : (add_edge_by_index g u v).1 = 0) :
    v ∈ adjOf (add_edge_by_index g u v).2 u ∧ u ∈ adjOf (add_edge_by_index g u v).2 v := by
  unfold add_edge_by_index at h ⊢
  split_ifs at h ⊢ with h1 h2 h3
  · simp at h
  · simp at h
  · simp at h
  · push_neg at h1
    obtain ⟨hu, hv⟩ := h1
    constructor
    · show v ∈ adjOf (Graph.mk
        (updateAdj (updateAdj g.vertices u (fun l => v :: l)) v (fun l => u :: l))
        (matWrite (matWrite g.adjMatrix u v 1) v u 1)) u
      have e1 : adjOf (Graph.mk
          (updateAdj (updateAdj g.vertices u (fun l => v :: l)) v (fun l => u :: l))
          (matWrite (matWrite g.adjMatrix u v 1) v u 1)) u = v :: adjOf g u := by
        show ((updateAdj (updateAdj g.vertices u (fun l => v :: l)) v
          (fun l => u :: l)).getD u default).adj = _
        rw [getD_updateAdj_ne _ v _ u h2, getD_updateAdj_self _ u _ hu]
        rfl
      rw [e1]
      exact List.mem_cons_self v _
    · show u ∈ adjOf (Graph.mk
        (updateAdj (updateAdj g.vertices u (fun l => v :: l)) v (fun l => u :: l))
        (matWrite (matWrite g.adjMatrix u v 1) v u 1)) v
      have e2 : adjOf (Graph.mk
          (updateAdj (updateAdj g.vertices u (fun l => v :: l)) v (fun l => u :: l))
          (matWrite (matWrite g.adjMatrix u v 1) v u 1)) v = u :: adjOf g v := by
        show ((updateAdj (updateAdj g.vertices u (fun l => v :: l)) v
          (fun l => u :: l)).getD v default).adj = _
        rw [getD_updateAdj_self _ v _ (by rw [length_updateAdj]; exact hv),
          getD_updateAdj_ne _ u _ v (fun hvu => h2 hvu.symm)]
        rfl
      rw [e2]
      exact List.mem_cons_self u _

theorem add_vertex_success (g : Graph) (name : String)
    (h : (add_vertex g name).1 = 0) :
    g.n < MAX_VERTICES ∧ find_vertex_index g name = -1 ∧
      (add_vertex g name).2 = ⟨g.vertices ++ [⟨name, []⟩], g.adjMatrix⟩ := by
  unfold add_vertex at h ⊢
  split_ifs at h ⊢ with h1 h2
  · simp at h
  · simp at h
  · exact ⟨by omega, not_not.mp h2, rfl⟩

/-! ### Single-step evaluation of the BFS loop (for concrete runs) -/

theorem bfs_loop_nil (g : Graph) (U : Finset Nat) (hU : ∀ u, ∀ x ∈ adjOf g u, x ∈ U)
    (visited : Finset Nat) (hv : visited ⊆ U) :
    (bfs_loop g U hU [] visited hv).1 = [] := by
  simp [bfs_loop]

theorem bfs_loop_cons (g : Graph) (U : Finset Nat) (hU : ∀ u, ∀ x ∈ adjOf g u, x ∈ U)
    (u : Nat) (rest : List Nat) (visited : Finset Nat) (hv : visited ⊆ U)
    (v2 : Finset Nat) (q2 : List Nat)
    (h : (bfs_push U (adjOf g u) (hU u) visited hv rest).1 = (v2, q2)) (hv2 : v2 ⊆ U) :
    (bfs_loop g U hU (u :: rest) visited hv).1 =
      u :: (bfs_loop g U hU q2 v2 hv2).1 := by
  rcases heq : bfs_push U (adjOf g u) (hU u) visited hv rest with ⟨⟨v2', q2'⟩, ha, hb, hc⟩
  rw [heq] at h
  dsimp only at h
  injection h with h1 h2
  subst h1
  subst h2
  simp only [bfs_loop]
  rw [heq]

/-! ### The claims -/

/-- C1: starting from the empty graph, after adding vertices `A B C D`
(positions 0..3) and edges `A-C`, `B-D`, a successful removal of position 1
(`B`) leaves exactly `[A, C, D]` at positions `[0, 1, 2]`, edge set exactly
`{0,1}` (the old `A-C`), and `D` at position 2 with an empty adjacency
set. -/
theorem claim_C1 :
    (remove_vertex_by_index compactGraph 1).1 = 0 ∧
    (remove_vertex_by_index compactGraph 1).2.vertices.map Vertex.name = ["A", "C", "D"] ∧
    (remove_vertex_by_index compactGraph 1).2.n = 3 ∧
    adjOf (remove_vertex_by_index compactGraph 1).2 0 = [1] ∧
    adjOf (remove_vertex_by_index compactGraph 1).2 1 = [0] ∧
    adjOf (remove_vertex_by_index compactGraph 1).2 2 = [] ∧
    (∀ u, u < 3 → ∀ v, v < 3 →
      ((remove_vertex_by_index compactGraph 1).2.adjMatrix u v = 1 ↔
        ((u = 0 ∧ v = 1) ∨ (u = 1 ∧ v = 0)))) := by
  decide

/-- C2: in every state reachable from the empty graph by a sequence of
engine operations, adjacency is symmetric: for valid positions `u`, `v`,
`u` lists `v` iff `v` lists `u`. -/
theorem claim_C2 (ops : List Op) (u v : Nat)
    (hu : u < (runOps ops).n) (hv : v < (runOps ops).n) :
    v ∈ adjOf (runOps ops) u ↔ u ∈ adjOf (runOps ops) v := by
  have h := WF_runOps ops
  constructor
  · intro hx
    exact (h.mat_list v u hv hu).mp (by
      rw [h.mat_sym v u]
      exact (h.mat_list u v hu hv).mpr hx)
  · intro hx
    exact (h.mat_list u v hu hv).mp (by
      rw [h.mat_sym u v]
      exact (h.mat_list v u hv hu).mpr hx)

theorem claim_C2_witness :
    0 < pairGraph.n ∧ 1 < pairGraph.n ∧
    (1 ∈ adjOf pairGraph 0 ↔ 0 ∈ adjOf pairGraph 1) :=
  ⟨by decide, by decide,
    claim_C2 [Op.addV "A", Op.addV "B"] 0 1 (by decide) (by decide)⟩

/-- C3: on any graph satisfying the valid-entry and symmetry invariants,
for any in-range start, the BFS dequeue order and the DFS visit order are
duplicate-free and their element sets are exactly the vertices reachable
from `start` (so both traversals terminate and handle cycles), and the
BFS order begins with `start`. -/
theorem claim_C3 (g : Graph) (start : Nat)
    (hval : ∀ u, u < g.n → ∀ x ∈ adjOf g u, x < g.n)
    (hsym : ∀ u, u < g.n → ∀ v, v < g.n → (v ∈ adjOf g u ↔ u ∈ adjOf g v))
    (hs : start < g.n) :
    (bfs_run g start).1.Nodup ∧
    (∀ v, v ∈ (bfs_run g start).1 ↔ Reaches g start v) ∧
    (∃ t, (bfs_run g start).1 = start :: t) ∧
    (dfs_run g start).1.Nodup ∧
    (∀ v, v ∈ (dfs_run g start).1 ↔ Reaches g start v) :=
  ⟨bfs_run_nodup g start hs, bfs_run_mem g start hs, bfs_run_head g start hs,
   dfs_run_nodup g start hs, dfs_run_mem g start hs⟩

theorem claim_C3_witness :
    ((∀ u, u < triangleGraph.n → ∀ x ∈ adjOf triangleGraph u, x < triangleGraph.n) ∧
      (∀ u, u < triangleGraph.n → ∀ v, v < triangleGraph.n →
        (v ∈ adjOf triangleGraph u ↔ u ∈ adjOf triangleGraph v)) ∧
      0 < triangleGraph.n) ∧
    ((bfs_run triangleGraph 0).1.Nodup ∧
      (∀ v, v ∈ (bfs_run triangleGraph 0).1 ↔ Reaches triangleGraph 0 v) ∧
      (∃ t, (bfs_run triangleGraph 0).1 = 0 :: t) ∧
      (dfs_run triangleGraph 0).1.Nodup ∧
      (∀ v, v ∈ (dfs_run triangleGraph 0).1 ↔ Reaches triangleGraph 0 v)) :=
  ⟨⟨by decide, by decide, by decide⟩,
    claim_C3 triangleGraph 0 (by decide) (by decide) (by decide)⟩

/-- C4: in every reachable state, the adjacency-matrix mirror cell `(u,v)`
is `1` exactly when `v` occurs in `u`'s adjacency list, for valid
positions `u`, `v`. -/
theorem claim_C4 (ops : List Op) (u v : Nat)
    (hu : u < (runOps ops).n) (hv : v < (runOps ops).n) :
    (runOps ops).adjMatrix u v = 1 ↔ v ∈ adjOf (runOps ops) u := by
  have h := WF_runOps ops
  constructor
  · intro h1
    exact (h.mat_list u v hu hv).mp (by rw [h1]; exact one_ne_zero)
  · intro hmem
    rcases h.mat01 u v with h0 | h1
    · exact absurd h0 ((h.mat_list u v hu hv).mpr hmem)
    · exact h1

theorem claim_C4_witness :
    0 < pairGraph.n ∧ 1 < pairGraph.n ∧
    (pairGraph.adjMatrix 0 1 = 1 ↔ 1 ∈ adjOf pairGraph 0) :=
  ⟨by decide, by decide,
    claim_C4 [Op.addV "A", Op.addV "B"] 0 1 (by decide) (by decide)⟩

/-- C5: in every reachable state, every entry of every vertex's adjacency
list is a valid position strictly below the current count. -/
theorem claim_C5 (ops : List Op) (u : Nat) (hu : u < (runOps ops).n) :
    ∀ x ∈ adjOf (runOps ops) u, x < (runOps ops).n :=
  (WF_runOps ops).entries_lt u hu

theorem claim_C5_witness :
    0 < (runOps [Op.addV "A", Op.addV "B", Op.addEIdx 0 1]).n ∧
    ∀ x ∈ adjOf (runOps [Op.addV "A", Op.addV "B", Op.addEIdx 0 1]) 0,
      x < (runOps [Op.addV "A", Op.addV "B", Op.addEIdx 0 1]).n :=
  ⟨by decide, claim_C5 [Op.addV "A", Op.addV "B", Op.addEIdx 0 1] 0 (by decide)⟩

/-- C6 counterexample: on a graph already at `MAX_VERTICES` capacity that
contains the name, `add_vertex` fails with the capacity code `-1`, not the
duplicate-name code `-2` — so the claim that a duplicate name always fails
with `DuplicateName` is false as stated. -/
theorem claim_C6_counterexample :
    (∃ v ∈ fullGraph.vertices, v.name = "v0") ∧
    (add_vertex fullGraph "v0").1 = -1 ∧ ((-1 : Int) ≠ -2) := by
  decide

/-- C6 (amended): on every graph state strictly below capacity in which a
vertex with the given name exists, `add_vertex` fails with the
`DuplicateName` code `-2` and leaves the graph unchanged (at capacity the
`CapacityExceeded` code `-1` wins instead). -/
theorem claim_C6_amended (g : Graph) (name : String) (hcap : g.n < MAX_VERTICES)
    (hex : ∃ v ∈ g.vertices, v.name = name) :
    (add_vertex g name).1 = -2 ∧ (add_vertex g name).2 = g := by
  have hfind : find_vertex_index g name ≠ -1 := by
    intro h
    obtain ⟨v, hv, hvn⟩ := hex
    exact (find_vertex_index_neg_iff g name).mp h v hv hvn
  unfold add_vertex
  rw [if_neg (by omega), if_pos hfind]
  exact ⟨rfl, rfl⟩

theorem claim_C6_witness :
    (pairGraph.n < MAX_VERTICES ∧ (∃ v ∈ pairGraph.vertices, v.name = "A")) ∧
    ((add_vertex pairGraph "A").1 = -2 ∧ (add_vertex pairGraph "A").2 = pairGraph) :=
  ⟨⟨by decide, by decide⟩, claim_C6_amended pairGraph "A" (by decide) (by decide)⟩

/-- C7: from the empty graph, adding `Alice`, `Bob`, `Carol` (positions
0, 1, 2) and the edges Alice-Bob then Alice-Carol, BFS from `Alice`
deterministically returns `[0, 2, 1]` (neighbors iterate
most-recently-added first, because edges are prepended), and afterwards
removing `Alice` leaves exactly `["Bob", "Carol"]` at positions `[0, 1]`
with no edges. -/
theorem claim_C7 :
    aliceGraph.vertices.map Vertex.name = ["Alice", "Bob", "Carol"] ∧
    (bfs aliceGraph 0 MAX_VERTICES).2 = [0, 2, 1] ∧
    (bfs aliceGraph 0 MAX_VERTICES).1 = 3 ∧
    (remove_vertex aliceGraph "Alice").1 = 0 ∧
    (remove_vertex aliceGraph "Alice").2.vertices.map Vertex.name = ["Bob", "Carol"] ∧
    (remove_vertex aliceGraph "Alice").2.n = 2 ∧
    adjOf (remove_vertex aliceGraph "Alice").2 0 = [] ∧
    adjOf (remove_vertex aliceGraph "Alice").2 1 = [] ∧
    (∀ u, u < 2 → ∀ v, v < 2 →
      (remove_vertex aliceGraph "Alice").2.adjMatrix u v = 0) := by
  have hV1 : ({1, 2, 0} : Finset Nat) ⊆ travU aliceGraph 0 := by decide
  have e0 := bfs_run_start_lt aliceGraph 0 (by decide)
  have e1 := bfs_loop_cons aliceGraph (travU aliceGraph 0) (travU_spec aliceGraph 0) 0 []
    {0} (Finset.singleton_subset_iff.mpr (Finset.mem_insert_self 0 _))
    {1, 2, 0} [2, 1] rfl hV1
  have e2 := bfs_loop_cons aliceGraph (travU aliceGraph 0) (travU_spec aliceGraph 0) 2 [1]
    {1, 2, 0} hV1 {1, 2, 0} [1] rfl hV1
  have e3 := bfs_loop_cons aliceGraph (travU aliceGraph 0) (travU_spec aliceGraph 0) 1 []
    {1, 2, 0} hV1 {1, 2, 0} [] rfl hV1
  have e4 := bfs_loop_nil aliceGraph (travU aliceGraph 0) (travU_spec aliceGraph 0)
    {1, 2, 0} hV1
  have hbfs : (bfs_run aliceGraph 0).1 = [0, 2, 1] := by
    rw [e0, e1, e2, e3, e4]
  refine ⟨by decide, ?_, ?_, by decide, by decide, by decide, by decide, by decide,
    by decide⟩
  · show (bfs_run aliceGraph 0).1.take MAX_VERTICES = [0, 2, 1]
    rw [hbfs]
    decide
  · show (bfs_run aliceGraph 0).1.length = 3
    rw [hbfs]
    rfl

/-- C8: whenever a mutating operation (`add_vertex`, `add_edge`,
`remove_edge`, `remove_vertex`, by index or by name) returns an error
code, the resulting graph state is exactly the input state; and a
successful `add_edge_by_index` inserts each endpoint into the other's
adjacency list (never only one side). -/
theorem claim_C8 (g : Graph) (name n1 n2 : String) (u v t : Nat) :
    ((add_vertex g name).1 ≠ 0 → (add_vertex g name).2 = g) ∧
    ((add_edge_by_index g u v).1 ≠ 0 → (add_edge_by_index g u v).2 = g) ∧
    ((add_edge g n1 n2).1 ≠ 0 → (add_edge g n1 n2).2 = g) ∧
    ((remove_edge_by_index g u v).1 ≠ 0 → (remove_edge_by_index g u v).2 = g) ∧
    ((remove_edge g n1 n2).1 ≠ 0 → (remove_edge g n1 n2).2 = g) ∧
    ((remove_vertex_by_index g t).1 ≠ 0 → (remove_vertex_by_index g t).2 = g) ∧
    ((remove_vertex g name).1 ≠ 0 → (remove_vertex g name).2 = g) ∧
    ((add_edge_by_index g u v).1 = 0 →
      v ∈ adjOf (add_edge_by_index g u v).2 u ∧
        u ∈ adjOf (add_edge_by_index g u v).2 v) :=
  ⟨add_vertex_err g name, add_edge_by_index_err g u v, add_edge_err g n1 n2,
   remove_edge_by_index_err g u v, remove_edge_err g n1 n2,
   remove_vertex_by_index_err g t, remove_vertex_err g name,
   add_edge_by_index_success g u v⟩

theorem claim_C8_witness :
    ((add_vertex pairGraph "A").1 ≠ 0 ∧ (add_vertex pairGraph "A").2 = pairGraph) ∧
    ((add_edge_by_index pairGraph 0 0).1 ≠ 0 ∧
      (add_edge_by_index pairGraph 0 0).2 = pairGraph) ∧
    ((add_edge pairGraph "A" "Z").1 ≠ 0 ∧ (add_edge pairGraph "A" "Z").2 = pairGraph) ∧
    ((remove_edge_by_index pairGraph 0 1).1 ≠ 0 ∧
      (remove_edge_by_index pairGraph 0 1).2 = pairGraph) ∧
    ((remove_edge pairGraph "A" "B").1 ≠ 0 ∧
      (remove_edge pairGraph "A" "B").2 = pairGraph) ∧
    ((remove_vertex_by_index pairGraph 5).1 ≠ 0 ∧
      (remove_vertex_by_index pairGraph 5).2 = pairGraph) ∧
    ((remove_vertex pairGraph "Z").1 ≠ 0 ∧ (remove_vertex pairGraph "Z").2 = pairGraph) ∧
    ((add_edge_by_index pairGraph 0 1).1 = 0 ∧
      1 ∈ adjOf (add_edge_by_index pairGraph 0 1).2 0 ∧
      0 ∈ adjOf (add_edge_by_index pairGraph 0 1).2 1) :=
  ⟨⟨by decide, (claim_C8 pairGraph "A" "A" "Z" 0 0 5).1 (by decide)⟩,
   ⟨by decide, (claim_C8 pairGraph "A" "A" "Z" 0 0 5).2.1 (by decide)⟩,
   ⟨by decide, (claim_C8 pairGraph "A" "A" "Z" 0 0 5).2.2.1 (by decide)⟩,
   ⟨by decide, (claim_C8 pairGraph "A" "A" "Z" 0 1 5).2.2.2.1 (by decide)⟩,
   ⟨by decide, (claim_C8 pairGraph "A" "A" "B" 0 1 5).2.2.2.2.1 (by decide)⟩,
   ⟨by decide, (claim_C8 pairGraph "A" "A" "Z" 0 0 5).2.2.2.2.2.1 (by decide)⟩,
   ⟨by decide, (claim_C8 pairGraph "Z" "A" "Z" 0 0 5).2.2.2.2.2.2.1 (by decide)⟩,
   ⟨by decide,
     ((claim_C8 pairGraph "A" "A" "Z" 0 1 5).2.2.2.2.2.2.2 (by decide)).1,
     ((claim_C8 pairGraph "A" "A" "Z" 0 1 5).2.2.2.2.2.2.2 (by decide)).2⟩⟩

/-- C9: the query operations — the BFS runner, the DFS runner, and the
`find_vertex_index` scanning loop — hand back the graph they were given,
unchanged (vertex store, names, adjacency lists and matrix mirror
included, since the whole `Graph` value is equal). -/
theorem claim_C9 (g : Graph) (start : Nat) (name : String) (i : Nat) :
    (bfs_run g start).2 = g ∧ (dfs_run g start).2 = g ∧
    (find_vertex_index_loop g.vertices name i g).2 = g :=
  ⟨bfs_run_graph g start, dfs_run_graph g start,
   find_vertex_index_loop_graph name g g.vertices i⟩

/-- C10: on every graph whose vertex names are pairwise distinct, whenever
`add_vertex name` succeeds, `find_vertex_index` on the resulting graph
returns the position of the appended vertex: the new count minus one. -/
theorem claim_C10 (g : Graph) (name : String)
    (huniq : ∀ i, i < g.n → ∀ j, j < g.n → i ≠ j →
      (vertexAt g i).name ≠ (vertexAt g j).name)
    (hsucc : (add_vertex g name).1 = 0) :
    find_vertex_index (add_vertex g name).2 name = ((add_vertex g name).2.n : Int) - 1 := by
  obtain ⟨hcap, hfind, hres⟩ := add_vertex_success g name hsucc
  have hno : ∀ v ∈ g.vertices, v.name ≠ name := (find_vertex_index_neg_iff g name).mp hfind
  rw [hres]
  show (find_vertex_index_loop (g.vertices ++ [(⟨name, []⟩ : Vertex)]) name 0
    (Graph.mk (g.vertices ++ [(⟨name, []⟩ : Vertex)]) g.adjMatrix)).1 = _
  rw [find_loop_append name (Graph.mk (g.vertices ++ [(⟨name, []⟩ : Vertex)]) g.adjMatrix)
    (⟨name, []⟩ : Vertex) rfl g.vertices 0 hno]
  show ((0 + g.vertices.length : Nat) : Int) =
    ((g.vertices ++ [(⟨name, []⟩ : Vertex)]).length : Int) - 1
  simp only [List.length_append, List.length_cons, List.length_nil]
  push_cast
  omega

theorem claim_C10_witness :
    (∀ i, i < pairGraph.n → ∀ j, j < pairGraph.n → i ≠ j →
      (vertexAt pairGraph i).name ≠ (vertexAt pairGraph j).name) ∧
    (add_vertex pairGraph "C").1 = 0 ∧
    find_vertex_index (add_vertex pairGraph "C").2 "C" =
      ((add_vertex pairGraph "C").2.n : Int) - 1 :=
  ⟨by decide, by decide, claim_C10 pairGraph "C" (by decide) (by decide)⟩
